import Mathlib

/-!
# Verification of the bd_job_microservice extraction/normalization pipeline

Shallow embedding of the core parsing pipeline (`app/parsers/job_parser.py`,
`app/parsers/data_cleaner.py`, `app/parsers/field_extractor.py`) and proofs of
the specification claims about it.

Modelling conventions:
* Python strings are modelled as `List Char` (`Str`), restricted to the ASCII
  fragment: theorems that depend on Unicode-sensitive steps carry an ASCII
  hypothesis, and `unicodedata.normalize('NFKD', ·)` — which is the identity on
  ASCII text — is modelled as the identity function `nfkd`.
* Python regular-expression operations are modelled by bespoke matchers that
  mirror the semantics (leftmost search, greedy repetition, alternation order,
  word boundaries, single-pass non-overlapping substitution) of the concrete
  patterns appearing in the source.
* A Python function that can raise is modelled with the `PyRes` result type;
  machine integers do not overflow in the relevant code, so `Nat`/`Int` are
  used directly.
* Python `set` iteration order is unspecified; list-of-set results
  (`list(skills)`, `', '.join(set(...))`) are modelled in sorted order.  No
  claim depends on this order.
-/

set_option maxRecDepth 20000

abbrev Str := List Char

/-- Result of a Python call: a value, or an uncaught exception with a message. -/
inductive PyRes (α : Type) where
  | ok (a : α)
  | exn (msg : String)
deriving DecidableEq

/-- ASCII lower-casing of one character (Python `str.lower` on ASCII). -/
def pyLower (c : Char) : Char :=
  if 'A' ≤ c ∧ c ≤ 'Z' then Char.ofNat (c.toNat + 32) else c

/-- ASCII upper-casing of one character (Python `str.upper` on ASCII). -/
def pyUpper (c : Char) : Char :=
  if 'a' ≤ c ∧ c ≤ 'z' then Char.ofNat (c.toNat - 32) else c

/-- Python `str.lower` on a string. -/
def lowerS (s : Str) : Str := s.map pyLower

/-- Python whitespace characters (the `\s` class on ASCII). -/
def pySpace (c : Char) : Bool :=
  c = ' ' ∨ c = '\t' ∨ c = '\n' ∨ c = '\r' ∨ c = '\x0b' ∨ c = '\x0c'

/-- Python word characters (the `\w` class on ASCII): alphanumerics and `_`. -/
def pyWordChar (c : Char) : Bool := c.isAlphanum || c = '_'

/-- Python `str.lstrip()`. -/
def lstripS (l : Str) : Str := l.dropWhile pySpace

/-- Python `str.rstrip()`: remove the trailing whitespace run. -/
def rstripS : Str → Str
  | [] => []
  | c :: t =>
    match rstripS t with
    | [] => if pySpace c then [] else [c]
    | r => c :: r

/-- Python `str.strip()`. -/
def stripS (l : Str) : Str := lstripS (rstripS l)

/-- Worker for `collapseWs`; the flag records whether the previous character
was whitespace (so that a run is replaced by a single space). -/
def collapseWsA : Bool → Str → Str
  | _, [] => []
  | pv, c :: t =>
    if pySpace c then
      (if pv then collapseWsA true t else ' ' :: collapseWsA true t)
    else c :: collapseWsA false t

/-- Embedding of `re.sub(r'\s+', ' ', text)`: collapse whitespace runs. -/
def collapseWs (l : Str) : Str := collapseWsA false l

/-- Worker for `stripTags` with explicit fuel (the recursion is not
structural: a removed tag may span many characters). -/
def stripTagsF : Nat → Str → Str
  | 0, l => l
  | _ + 1, [] => []
  | f + 1, c :: t =>
    if c = '<' then
      match t.span (fun d => !(d = '>')) with
      | (pre, g :: rest) =>
        if pre = [] then c :: g :: stripTagsF f rest else stripTagsF f rest
      | (_, []) => c :: t
    else c :: stripTagsF f t

/-- Embedding of `re.sub(r'<[^>]+>', '', text)`: at each `<`, if a later `>`
exists with at least one character in between, the whole span is removed and
scanning resumes after it; an immediately following `>` (empty tag) is kept. -/
def stripTags (l : Str) : Str := stripTagsF l.length l

/-- Python `str.title()` on ASCII: an alphabetic character is upper-cased if
the previous character is not alphabetic, lower-cased otherwise. -/
def pyTitleA : Bool → Str → Str
  | _, [] => []
  | pv, c :: t =>
    if c.isAlpha then (if pv then pyLower c else pyUpper c) :: pyTitleA true t
    else c :: pyTitleA false t

/-- Python `str.title()`. -/
def pyTitle (l : Str) : Str := pyTitleA false l

/-- Python `str.capitalize()` on ASCII: first character upper-cased, the rest
lower-cased. -/
def pyCapitalize : Str → Str
  | [] => []
  | c :: t => pyUpper c :: lowerS t

/-- Does `s` start with `p`? -/
def strStarts : Str → Str → Bool
  | _, [] => true
  | [], _ :: _ => false
  | c :: s, p :: ps => (c = p) && strStarts s ps

/-- Python `pat in hay` (substring containment). -/
def hasSubstr : Str → Str → Bool
  | s, p => strStarts s p || go s p
where
  go : Str → Str → Bool
    | [], _ => false
    | _ :: t, p => strStarts t p || go t p

/-- Numeric value of a digit string (`int(...)` on a `\d+` match). -/
def toNatD (ds : Str) : Nat := ds.foldl (fun a c => a * 10 + (c.toNat - 48)) 0

/-- Leftmost-position regex search: try the position matcher at index 0, 1, …
(including the end-of-string position), returning the first hit. -/
def searchWith {α : Type} (m : Str → Option α) : Str → Option α
  | [] => m []
  | c :: t =>
    match m (c :: t) with
    | some r => some r
    | none => searchWith m t

/-- Leftmost match of `re.search(r'(\d+)', ·)`: the first digit run. -/
def firstNumber (s : Str) : Option Nat :=
  searchWith (fun l =>
    match l.span Char.isDigit with
    | ([], _) => none
    | (d, _) => some (toNatD d)) s

/-- Python `str.split()`: split on whitespace runs, dropping empty pieces. -/
def pySplitA : Str → Str → List Str
  | [], acc => if acc = [] then [] else [acc.reverse]
  | c :: t, acc =>
    if pySpace c then
      (if acc = [] then pySplitA t [] else acc.reverse :: pySplitA t [])
    else pySplitA t (c :: acc)

/-- Python `str.split()`. -/
def pySplit (l : Str) : List Str := pySplitA l []

/-- Python `sep.join(parts)`. -/
def joinSep (sep : Str) (parts : List Str) : Str := List.intercalate sep parts

section MD5

/-- Modulus of 32-bit arithmetic. -/
def M32 : Nat := 4294967296

/-- Addition modulo `2^32`. -/
def add32 (a b : Nat) : Nat := (a + b) % M32

/-- Bitwise complement on 32 bits. -/
def not32 (a : Nat) : Nat := M32 - 1 - a

/-- Left rotation of a 32-bit word. -/
def rotl32 (x s : Nat) : Nat := ((x <<< s) % M32) ||| (x >>> (32 - s))

/-- The 64 MD5 sine-derived round constants. -/
def md5K : List Nat :=
  [3614090360, 3905402710, 606105819, 3250441966, 4118548399, 1200080426, 2821735955, 4249261313,
   1770035416, 2336552879, 4294925233, 2304563134, 1804603682, 4254626195, 2792965006, 1236535329,
   4129170786, 3225465664, 643717713, 3921069994, 3593408605, 38016083, 3634488961, 3889429448,
   568446438, 3275163606, 4107603335, 1163531501, 2850285829, 4243563512, 1735328473, 2368359562,
   4294588738, 2272392833, 1839030562, 4259657740, 2763975236, 1272893353, 4139469664, 3200236656,
   681279174, 3936430074, 3572445317, 76029189, 3654602809, 3873151461, 530742520, 3299628645,
   4096336452, 1126891415, 2878612391, 4237533241, 1700485571, 2399980690, 4293915773, 2240044497,
   1873313359, 4264355552, 2734768916, 1309151649, 4149444226, 3174756917, 718787259, 3951481745]

/-- The 64 MD5 per-round rotation amounts. -/
def md5S : List Nat :=
  [7, 12, 17, 22, 7, 12, 17, 22, 7, 12, 17, 22, 7, 12, 17, 22,
   5, 9, 14, 20, 5, 9, 14, 20, 5, 9, 14, 20, 5, 9, 14, 20,
   4, 11, 16, 23, 4, 11, 16, 23, 4, 11, 16, 23, 4, 11, 16, 23,
   6, 10, 15, 21, 6, 10, 15, 21, 6, 10, 15, 21, 6, 10, 15, 21]

/-- MD5 padding of a byte message to a multiple of 64 bytes. -/
def md5pad (msg : List Nat) : List Nat :=
  let len := msg.length
  let zeros := (55 + 64 - len % 64) % 64
  let bitLen := (len * 8) % (2 ^ 64)
  msg ++ [128] ++ List.replicate zeros 0 ++
    (List.range 8).map (fun i => (bitLen >>> (8 * i)) % 256)

/-- Split one 64-byte chunk into 16 little-endian 32-bit words. -/
def toWords (chunk : List Nat) : List Nat :=
  (List.range 16).map (fun i =>
    chunk.getD (4 * i) 0 + chunk.getD (4 * i + 1) 0 * 256 +
      chunk.getD (4 * i + 2) 0 * 65536 + chunk.getD (4 * i + 3) 0 * 16777216)

/-- One MD5 round on the state `(a, b, c, d)`. -/
def md5round (M : List Nat) (st : Nat × Nat × Nat × Nat) (i : Nat) :
    Nat × Nat × Nat × Nat :=
  let (a, b, c, d) := st
  let fg : Nat × Nat :=
    if i < 16 then ((b &&& c) ||| (not32 b &&& d), i)
    else if i < 32 then ((d &&& b) ||| (not32 d &&& c), (5 * i + 1) % 16)
    else if i < 48 then (b ^^^ c ^^^ d, (3 * i + 5) % 16)
    else (c ^^^ (b ||| not32 d), 7 * i % 16)
  let f := add32 (add32 (add32 fg.1 a) (md5K.getD i 0)) (M.getD fg.2 0)
  (d, add32 b (rotl32 f (md5S.getD i 0)), b, c)

/-- Process one 64-byte chunk. -/
def md5chunk (st : Nat × Nat × Nat × Nat) (chunk : List Nat) :
    Nat × Nat × Nat × Nat :=
  let M := toWords chunk
  let r := (List.range 64).foldl (md5round M) st
  (add32 st.1 r.1, add32 st.2.1 r.2.1, add32 st.2.2.1 r.2.2.1, add32 st.2.2.2 r.2.2.2)

/-- Split a padded message into 64-byte chunks (fuel-driven recursion). -/
def chunksAux : Nat → List Nat → List (List Nat)
  | 0, _ => []
  | _ + 1, [] => []
  | n + 1, l => l.take 64 :: chunksAux n (l.drop 64)

/-- Split a padded message into 64-byte chunks. -/
def chunks (l : List Nat) : List (List Nat) := chunksAux l.length l

/-- Lower-case hexadecimal digit. -/
def hexDigit (n : Nat) : Char :=
  if n < 10 then Char.ofNat (48 + n) else Char.ofNat (87 + n)

/-- Little-endian hexadecimal rendering of one 32-bit word. -/
def wordHex (w : Nat) : Str :=
  (List.range 4).flatMap (fun i =>
    let byte := (w >>> (8 * i)) % 256
    [hexDigit (byte / 16), hexDigit (byte % 16)])

/-- Hexadecimal MD5 digest of a byte message (`hashlib.md5(...).hexdigest()`). -/
def md5hex (msg : List Nat) : Str :=
  let st0 : Nat × Nat × Nat × Nat := (1732584193, 4023233417, 2562383102, 271733878)
  let r := (chunks (md5pad msg)).foldl md5chunk st0
  wordHex r.1 ++ wordHex r.2.1 ++ wordHex r.2.2.1 ++ wordHex r.2.2.2

/-- UTF-8 bytes of an ASCII string (`str.encode()` on the ASCII fragment). -/
def strBytes (s : Str) : List Nat := s.map Char.toNat

end MD5

/-- Embedding of the `RawRecord` input mapping consumed by
`JobParser.parse_job`: the named free-text fields read via
`raw_data.get(..., '')`, each modelled as a string (absent = `''`). -/
structure RawRecord where
  title : Str := []
  department : Str := []
  location : Str := []
  salary : Str := []
  vacancies : Str := []
  age : Str := []
  description : Str := []
  requirements : Str := []
  education : Str := []
  grade : Str := []
  experience : Str := []
  posting_date : Str := []
  deadline_date : Str := []
  application_link : Str := []
  source_url : Str := []
  source_site : Str := []
deriving DecidableEq

/-- Calendar date produced by a successful `datetime.strptime` /
`datetime(year, month, day)` construction. -/
structure PDate where
  year : Nat
  month : Nat
  day : Nat
deriving DecidableEq

/-- Gregorian leap-year test. -/
def isLeap (y : Nat) : Bool := y % 4 = 0 && (y % 100 ≠ 0 || y % 400 = 0)

/-- Number of days in a month. -/
def daysInMonth (y m : Nat) : Nat :=
  if m = 2 then (if isLeap y then 29 else 28)
  else if m = 4 ∨ m = 6 ∨ m = 9 ∨ m = 11 then 30
  else 31

/-- Embedding of the `datetime(year, month, day)` constructor: `some` for a
valid calendar date, `none` when the constructor would raise `ValueError`. -/
def pyDate (y m d : Nat) : Option PDate :=
  if 1 ≤ y ∧ y ≤ 9999 ∧ 1 ≤ m ∧ m ≤ 12 ∧ 1 ≤ d ∧ d ≤ daysInMonth y m then
    some ⟨y, m, d⟩
  else none

/-- Digit value of a character. -/
def digitVal (c : Char) : Nat := c.toNat - 48

/-- The ways `\d{1,2}` can match at the head of `l`, in greedy preference
order (two digits before one digit), each with the remaining input. -/
def d12 : Str → List (Nat × Str)
  | c1 :: c2 :: r =>
    if c1.isDigit then
      if c2.isDigit then [(digitVal c1 * 10 + digitVal c2, r), (digitVal c1, c2 :: r)]
      else [(digitVal c1, c2 :: r)]
    else []
  | [c1] => if c1.isDigit then [(digitVal c1, [])] else []
  | [] => []

/-- Exactly four digits (`\d{4}` and the `strptime` `%Y` directive). -/
def year4 : Str → Option (Nat × Str)
  | c1 :: c2 :: c3 :: c4 :: r =>
    if c1.isDigit && c2.isDigit && c3.isDigit && c4.isDigit then
      some (digitVal c1 * 1000 + digitVal c2 * 100 + digitVal c3 * 10 + digitVal c4, r)
    else none
  | _ => none

/-- The `strptime` `%d` directive: `3[01]|[12]\d|0[1-9]|[1-9]`. -/
def stpDay : Str → Option (Nat × Str)
  | c1 :: c2 :: r =>
    if c1.isDigit ∧ c2.isDigit ∧
        ((c1 = '3' ∧ (c2 = '0' ∨ c2 = '1')) ∨ c1 = '1' ∨ c1 = '2' ∨
          (c1 = '0' ∧ c2 ≠ '0')) then
      some (digitVal c1 * 10 + digitVal c2, r)
    else if '1' ≤ c1 ∧ c1 ≤ '9' then some (digitVal c1, c2 :: r)
    else none
  | [c1] => if '1' ≤ c1 ∧ c1 ≤ '9' then some (digitVal c1, []) else none
  | [] => none

/-- The `strptime` `%m` directive: `1[0-2]|0[1-9]|[1-9]`. -/
def stpMonth : Str → Option (Nat × Str)
  | c1 :: c2 :: r =>
    if c1.isDigit ∧ c2.isDigit ∧
        ((c1 = '1' ∧ (c2 = '0' ∨ c2 = '1' ∨ c2 = '2')) ∨ (c1 = '0' ∧ c2 ≠ '0')) then
      some (digitVal c1 * 10 + digitVal c2, r)
    else if '1' ≤ c1 ∧ c1 ≤ '9' then some (digitVal c1, c2 :: r)
    else none
  | [c1] => if '1' ≤ c1 ∧ c1 ≤ '9' then some (digitVal c1, []) else none
  | [] => none

/-- Month names with their numbers (the fixed 12-entry lookup; also the
`strptime` `%B` directive, matched case-insensitively).  No name is a prefix
of another, so try-in-order matching is faithful. -/
def monthNames : List (Str × Nat) :=
  [("january".data, 1), ("february".data, 2), ("march".data, 3), ("april".data, 4),
   ("may".data, 5), ("june".data, 6), ("july".data, 7), ("august".data, 8),
   ("september".data, 9), ("october".data, 10), ("november".data, 11), ("december".data, 12)]

/-- Match a month name (case-insensitively) at the head of `l`. -/
def monthAt (l : Str) : Option (Nat × Str) :=
  monthNames.findSome? (fun p =>
    if strStarts (lowerS l) p.1 then some (p.2, l.drop p.1.length) else none)

/-- Require at least one whitespace character (`\s+`), returning the rest. -/
def ws1 (l : Str) : Option Str :=
  match l with
  | c :: t => if pySpace c then some (t.dropWhile pySpace) else none
  | [] => none

/-- Worker for the `(?:,\d+)*` part of a comma-grouped number. -/
def commaGroupsF : Nat → Str → Str × Str
  | 0, l => ([], l)
  | _ + 1, [] => ([], [])
  | f + 1, c :: r =>
    if c = ',' then
      match r.span Char.isDigit with
      | ([], _) => ([], c :: r)
      | (d, r2) =>
        let p := commaGroupsF f r2
        (c :: (d ++ p.1), p.2)
    else ([], c :: r)

/-- Greedy match of `\d+(?:,\d+)*` at the head of `l`: the matched text and
the rest. -/
def numComma (l : Str) : Option (Str × Str) :=
  match l.span Char.isDigit with
  | ([], _) => none
  | (d, r) =>
    let p := commaGroupsF r.length r
    some (d ++ p.1, p.2)

/-- Word-boundary check after a match: end of string or a non-word char. -/
def nextNonWord : Str → Bool
  | [] => true
  | c :: _ => !pyWordChar c

/-- Try literal alternatives in order at the head of `l`; an alternative
succeeds when it matches and is followed by a word boundary (all alternatives
used in this development end in a word character). -/
def matchAltWB (alts : List Str) (l : Str) : Option Str :=
  alts.findSome? (fun a =>
    if strStarts l a && nextNonWord (l.drop a.length) then some a else none)

/-- Embedding of `re.findall(r'\b(alt1|alt2|...)\b', text)`: non-overlapping
leftmost matches; `pv` records whether the previous character is a word
character (= the leading `\b` fails). -/
def findAllBF (alts : List Str) : Nat → Bool → Str → List Str
  | 0, _, _ => []
  | _ + 1, _, [] => []
  | f + 1, pv, c :: t =>
    if !pv then
      match matchAltWB alts (c :: t) with
      | some a => a :: findAllBF alts f true ((c :: t).drop a.length)
      | none => findAllBF alts f (pyWordChar c) t
    else findAllBF alts f (pyWordChar c) t

/-- Embedding of `re.findall(r'\b(alt1|alt2|...)\b', text)`. -/
def findAllB (alts : List Str) (l : Str) : List Str := findAllBF alts l.length false l

/-- Lexicographic comparison of strings by character code. -/
def ltStr : Str → Str → Bool
  | [], [] => false
  | [], _ :: _ => true
  | _ :: _, [] => false
  | c :: s, d :: t => c.toNat < d.toNat || (c = d && ltStr s t)

/-- Insertion into a sorted list of strings. -/
def insertStr (x : Str) : List Str → List Str
  | [] => [x]
  | y :: t => if ltStr x y then x :: y :: t else y :: insertStr x t

/-- Insertion sort of strings (model for iterating a Python `set` and for
`sorted(...)`). -/
def sortStrs : List Str → List Str
  | [] => []
  | x :: t => insertStr x (sortStrs t)

/-- First table entry whose key occurs as a substring of `l` (the
`for abbrev, full in mappings.items(): if abbrev in text: return full`
idiom; Python dicts iterate in insertion order). -/
def lookupSub (l : Str) : List (Str × Str) → Option Str
  | [] => none
  | (k, v) :: rest => if hasSubstr l k then some v else lookupSub l rest

/-- Exact dictionary lookup (`dict.get(key)`). -/
def lookupExact (k : Str) : List (Str × Str) → Option Str
  | [] => none
  | (k2, v) :: rest => if k = k2 then some v else lookupExact k rest

namespace JobParser

/-- Embedding of `JobParser._clean_text`: remove HTML tags, collapse
whitespace, strip.  (Despite its docstring, this method does not remove
special characters.) -/
def clean_text (text : Str) : Str :=
  if text = [] then [] else stripS (collapseWs (stripTags text))

/-- The `location_mapping` table of `JobParser.__init__`. -/
def location_mapping : List (Str × Str) :=
  [("dhaka".data, "Dhaka".data), ("chittagong".data, "Chittagong".data),
   ("sylhet".data, "Sylhet".data), ("rajshahi".data, "Rajshahi".data),
   ("khulna".data, "Khulna".data), ("barisal".data, "Barisal".data),
   ("rangpur".data, "Rangpur".data), ("mymensingh".data, "Mymensingh".data)]

/-- Embedding of `JobParser._normalize_location`. -/
def normalize_location (location : Str) : Str :=
  let location := clean_text (lowerS location)
  match lookupSub location location_mapping with
  | some v => v
  | none => pyTitle location

/-- Position matcher for `(\d+)\s*(?:to|-)\s*(\d+)`: maximal digit run, any
whitespace, the literal `to` (tried first) or `-`, any whitespace, a second
digit run. -/
def ageP1At (l : Str) : Option (Nat × Nat) :=
  match l.span Char.isDigit with
  | ([], _) => none
  | (d1, r1) =>
    let r2 := r1.dropWhile pySpace
    let r3 :=
      if strStarts r2 "to".data then some (r2.drop 2)
      else if strStarts r2 "-".data then some (r2.drop 1)
      else none
    match r3 with
    | none => none
    | some r3 =>
      match (r3.dropWhile pySpace).span Char.isDigit with
      | ([], _) => none
      | (d2, _) => some (toNatD d1, toNatD d2)

/-- Position matcher for `LIT\s*(\d+)` (used with `maximum` and `minimum`). -/
def litNumAt (lit : Str) (l : Str) : Option Nat :=
  if strStarts l lit then
    match ((l.drop lit.length).dropWhile pySpace).span Char.isDigit with
    | ([], _) => none
    | (d, _) => some (toNatD d)
  else none

/-- Position matcher for `(\d+)\s*years?`. -/
def numYearsAt (l : Str) : Option Nat :=
  match l.span Char.isDigit with
  | ([], _) => none
  | (d1, r1) =>
    if strStarts (r1.dropWhile pySpace) "year".data then some (toNatD d1) else none

/-- Shared branch logic of `JobParser._extract_age_range` after a pattern
matched: the substring tests are on the input text, and the two-group branch
raises `IndexError` when the match object has a single group (`g2 = none`). -/
def ageBranch (ageText low : Str) (g1 : Nat) (g2 : Option Nat) :
    PyRes (Option Nat × Option Nat) :=
  if hasSubstr low "to".data || ageText.contains '-' then
    match g2 with
    | some b => .ok (some g1, some b)
    | none => .exn "no such group"
  else if hasSubstr low "maximum".data then .ok (none, some g1)
  else if hasSubstr low "minimum".data then .ok (some g1, none)
  else .ok (some g1, some g1)

/-- Embedding of `JobParser._extract_age_range`: try the four age patterns in
order on the lower-cased text; on the first match, dispatch on substring tests
of the raw text.  Accessing the absent second group raises. -/
def extract_age_range (ageText : Str) : PyRes (Option Nat × Option Nat) :=
  if ageText = [] then .ok (none, none)
  else
    let low := lowerS ageText
    match searchWith ageP1At low with
    | some (a, b) => ageBranch ageText low a (some b)
    | none =>
      match searchWith (litNumAt "maximum".data) low with
      | some a => ageBranch ageText low a none
      | none =>
        match searchWith (litNumAt "minimum".data) low with
        | some a => ageBranch ageText low a none
        | none =>
          match searchWith numYearsAt low with
          | some a => ageBranch ageText low a none
          | none => .ok (none, none)

/-- The raw concatenation hashed by `JobParser._generate_job_id`:
`f"{raw_data.get('title','')}{raw_data.get('department','')}{raw_data.get('location','')}"`. -/
def key_data (raw : RawRecord) : Str :=
  raw.title ++ raw.department ++ raw.location

/-- Embedding of `JobParser._generate_job_id`: the first 16 hex characters of
the MD5 digest of the raw title+department+location concatenation. -/
def generate_job_id (raw : RawRecord) : Str :=
  (md5hex (strBytes (key_data raw))).take 16

/-- The normalized (title, department, location) triple as computed by
`JobParser.parse_job` (title and department via `_clean_text`, location via
`_normalize_location`). -/
def normTriple (raw : RawRecord) : Str × Str × Str :=
  (clean_text raw.title, clean_text raw.department, normalize_location raw.location)

/-- Position matcher for the salary pattern
`(\d+(?:,\d+)*)\s*(?:to|-)?\s*(\d+(?:,\d+)*)?\s*taka`, returning the whole
match (`group(0)`).  Greedy matching without backtracking is exact here: a
consumed optional part can never start the literal `taka`. -/
def salP1At (l : Str) : Option Str :=
  match numComma l with
  | none => none
  | some (n1, r1) =>
    let pw1 := r1.span pySpace
    let pt : Str × Str :=
      if strStarts pw1.2 "to".data then ("to".data, pw1.2.drop 2)
      else if strStarts pw1.2 "-".data then ("-".data, pw1.2.drop 1)
      else ([], pw1.2)
    let pw2 := pt.2.span pySpace
    let pn2 : Str × Str :=
      match numComma pw2.2 with
      | some (n, r) => (n, r)
      | none => ([], pw2.2)
    let pw3 := pn2.2.span pySpace
    if strStarts pw3.2 "taka".data then
      some (n1 ++ pw1.1 ++ pt.1 ++ pw2.1 ++ pn2.1 ++ pw3.1 ++ "taka".data)
    else none

/-- Position matcher for `(\d+(?:,\d+)*)\s*(?:to|-)?\s*(\d+(?:,\d+)*)?`
(`group(0)`; everything after the first number is optional). -/
def salP2At (l : Str) : Option Str :=
  match numComma l with
  | none => none
  | some (n1, r1) =>
    let pw1 := r1.span pySpace
    let pt : Str × Str :=
      if strStarts pw1.2 "to".data then ("to".data, pw1.2.drop 2)
      else if strStarts pw1.2 "-".data then ("-".data, pw1.2.drop 1)
      else ([], pw1.2)
    let pw2 := pt.2.span pySpace
    match numComma pw2.2 with
    | some (n2, _) => some (n1 ++ pw1.1 ++ pt.1 ++ pw2.1 ++ n2)
    | none =>
      if pt.1 = [] then some (n1 ++ pw1.1) else some (n1 ++ pw1.1 ++ pt.1 ++ pw2.1)

/-- Position matcher for `grade\s*(\d+)` (`group(0)`). -/
def salP3At (l : Str) : Option Str :=
  if strStarts l "grade".data then
    let pw := (l.drop 5).span pySpace
    match pw.2.span Char.isDigit with
    | ([], _) => none
    | (d, _) => some ("grade".data ++ pw.1 ++ d)
  else none

/-- Embedding of `JobParser._extract_salary`: try the three patterns in order
on the lower-cased text and return the raw matched span; fall back to the
cleaned input text. -/
def extract_salary (salaryText : Str) : Option Str :=
  if salaryText = [] then none
  else
    let low := lowerS salaryText
    match searchWith salP1At low with
    | some g => some g
    | none =>
      match searchWith salP2At low with
      | some g => some g
      | none =>
        match searchWith salP3At low with
        | some g => some g
        | none => some (clean_text salaryText)

/-- Embedding of `JobParser._extract_vacancies`: first digit run, if any. -/
def extract_vacancies (vacancyText : Str) : Option Nat :=
  if vacancyText = [] then none
  else
    match firstNumber vacancyText with
    | some n => some n
    | none => none

/-- The five `skill_patterns` of `JobParser.__init__`, each as its list of
literal alternatives in alternation order (`node\.?js` expands to its two
greedy-ordered literal forms). -/
def skill_patterns : List (List Str) :=
  [["python".data, "java".data, "javascript".data, "php".data, "sql".data, "html".data,
    "css".data, "react".data, "angular".data, "vue".data, "node.js".data, "nodejs".data],
   ["microsoft office".data, "excel".data, "word".data, "powerpoint".data, "outlook".data],
   ["communication".data, "leadership".data, "teamwork".data, "problem solving".data,
    "analytical".data],
   ["project management".data, "time management".data, "critical thinking".data],
   ["computer".data, "typing".data, "internet".data, "email".data, "database".data]]

/-- The flat `skill_keywords` fallback list of `JobParser._extract_skills`. -/
def skill_keywords : List Str :=
  ["communication".data, "leadership".data, "teamwork".data, "analytical".data,
   "computer".data, "typing".data, "internet".data, "microsoft office".data,
   "problem solving".data, "time management".data, "project management".data]

/-- Embedding of `JobParser._extract_skills`: pattern matches plus keyword
substring hits, collected into a set (modelled as a sorted deduplicated
list). -/
def extract_skills (text : Str) : List Str :=
  if text = [] then []
  else
    let low := lowerS text
    let fromPatterns := skill_patterns.flatMap (fun alts => findAllB alts low)
    let kw := skill_keywords.filter (fun k => hasSubstr low k)
    sortStrs (fromPatterns ++ kw).dedup

/-- The four `education_patterns` of `JobParser.__init__`
(`masters?` expands to its two greedy-ordered literal forms). -/
def education_patterns : List (List Str) :=
  [["bachelor".data, "masters".data, "master".data, "phd".data, "doctorate".data,
    "diploma".data, "certificate".data],
   ["bsc".data, "msc".data, "ba".data, "ma".data, "bba".data, "mba".data, "llb".data,
    "mbbs".data],
   ["engineering".data, "medicine".data, "arts".data, "science".data, "commerce".data,
    "law".data],
   ["university".data, "college".data, "institute".data, "board".data]]

/-- Embedding of `JobParser._extract_education`: all pattern matches joined
with `', '` after dedup through a set (modelled sorted). -/
def extract_education (text : Str) : Option Str :=
  if text = [] then none
  else
    let low := lowerS text
    let info := education_patterns.flatMap (fun alts => findAllB alts low)
    if info = [] then none
    else some (joinSep ", ".data (sortStrs info.dedup))

/-- The `strptime` format `%Y<sep>%m<sep>%d` with full-input consumption. -/
def fmtYmd (sep : Char) (l : Str) : Option (Nat × Nat × Nat) :=
  match year4 l with
  | none => none
  | some (y, r1) =>
    match r1 with
    | c :: r2 =>
      if c = sep then
        match stpMonth r2 with
        | none => none
        | some (m, r3) =>
          match r3 with
          | c2 :: r4 =>
            if c2 = sep then
              match stpDay r4 with
              | some (d, []) => some (y, m, d)
              | _ => none
            else none
          | [] => none
      else none
    | [] => none

/-- The `strptime` format `%d<sep>%m<sep>%Y` with full-input consumption. -/
def fmtDmy (sep : Char) (l : Str) : Option (Nat × Nat × Nat) :=
  match stpDay l with
  | none => none
  | some (d, r1) =>
    match r1 with
    | c :: r2 =>
      if c = sep then
        match stpMonth r2 with
        | none => none
        | some (m, r3) =>
          match r3 with
          | c2 :: r4 =>
            if c2 = sep then
              match year4 r4 with
              | some (y, []) => some (y, m, d)
              | _ => none
            else none
          | [] => none
      else none
    | [] => none

/-- The `strptime` format `%B %d, %Y` (month name case-insensitive, format
whitespace matching `\s+`) with full-input consumption. -/
def fmtBdY (l : Str) : Option (Nat × Nat × Nat) :=
  match monthAt l with
  | none => none
  | some (m, r1) =>
    match ws1 r1 with
    | none => none
    | some r2 =>
      match stpDay r2 with
      | none => none
      | some (d, r3) =>
        match r3 with
        | c :: r4 =>
          if c = ',' then
            match ws1 r4 with
            | none => none
            | some r5 =>
              match year4 r5 with
              | some (y, []) => some (y, m, d)
              | _ => none
          else none
        | [] => none

/-- The `strptime` format `%d %B %Y` with full-input consumption. -/
def fmtDBY (l : Str) : Option (Nat × Nat × Nat) :=
  match stpDay l with
  | none => none
  | some (d, r1) =>
    match ws1 r1 with
    | none => none
    | some r2 =>
      match monthAt r2 with
      | none => none
      | some (m, r3) =>
        match ws1 r3 with
        | none => none
        | some r4 =>
          match year4 r4 with
          | some (y, []) => some (y, m, d)
          | _ => none

/-- Run one format: a successful `strptime` is a regex match followed by a
valid calendar construction (an invalid date raises `ValueError`, caught by
the caller's `except` which tries the next format). -/
def tryFmt (f : Str → Option (Nat × Nat × Nat)) (s : Str) : Option PDate :=
  match f s with
  | none => none
  | some (y, m, d) => pyDate y m d

/-- Embedding of `JobParser._parse_date`: try the six formats in source
order on the stripped input; malformed or calendar-invalid input yields
`none`. -/
def parse_date (dateStr : Str) : Option PDate :=
  if dateStr = [] then none
  else
    let s := stripS dateStr
    match tryFmt (fmtYmd '-') s with
    | some dt => some dt
    | none =>
      match tryFmt (fmtDmy '-') s with
      | some dt => some dt
      | none =>
        match tryFmt (fmtDmy '/') s with
        | some dt => some dt
        | none =>
          match tryFmt (fmtYmd '/') s with
          | some dt => some dt
          | none =>
            match tryFmt fmtBdY s with
            | some dt => some dt
            | none => tryFmt fmtDBY s

end JobParser

namespace FieldExtractor

/-- Position matcher for day, month, year each separated by a dash or slash
(separators independent): `(\d{1,2}) sep (\d{1,2}) sep (\d{4})`. -/
def dlP1At (l : Str) : Option (Nat × Nat × Nat) :=
  (d12 l).findSome? (fun p =>
    match p.2 with
    | c :: r2 =>
      if c = '-' ∨ c = '/' then
        (d12 r2).findSome? (fun q =>
          match q.2 with
          | c2 :: r4 =>
            if c2 = '-' ∨ c2 = '/' then
              match year4 r4 with
              | some (y, _) => some (p.1, q.1, y)
              | none => none
            else none
          | [] => none)
      else none
    | [] => none)

/-- Position matcher for year, month, day each separated by a dash or slash:
`(\d{4}) sep (\d{1,2}) sep (\d{1,2})`. -/
def dlP2At (l : Str) : Option (Nat × Nat × Nat) :=
  match year4 l with
  | none => none
  | some (y, r1) =>
    match r1 with
    | c :: r2 =>
      if c = '-' ∨ c = '/' then
        (d12 r2).findSome? (fun q =>
          match q.2 with
          | c2 :: r4 =>
            if c2 = '-' ∨ c2 = '/' then
              match d12 r4 with
              | (d, _) :: _ => some (y, q.1, d)
              | [] => none
            else none
          | [] => none)
      else none
    | [] => none

/-- Position matcher for `(\d{1,2})\s+(<month names>)\s+(\d{4})` returning
(day, month, year). -/
def dlP3At (l : Str) : Option (Nat × Nat × Nat) :=
  (d12 l).findSome? (fun p =>
    match ws1 p.2 with
    | none => none
    | some r2 =>
      match monthAt r2 with
      | none => none
      | some (m, r3) =>
        match ws1 r3 with
        | none => none
        | some r4 =>
          match year4 r4 with
          | some (y, _) => some (p.1, m, y)
          | none => none)

/-- Position matcher for `(<month names>)\s+(\d{1,2}),?\s+(\d{4})` returning
(month, day, year). -/
def dlP4At (l : Str) : Option (Nat × Nat × Nat) :=
  match monthAt l with
  | none => none
  | some (m, r1) =>
    match ws1 r1 with
    | none => none
    | some r2 =>
      (d12 r2).findSome? (fun p =>
        let tail := match p.2 with
          | c :: r => if c = ',' then r else p.2
          | [] => []
        match ws1 tail with
        | none => none
        | some r4 =>
          match year4 r4 with
          | some (y, _) => some (m, p.1, y)
          | none => none)

/-- Embedding of `FieldExtractor.extract_application_deadline`: search the
four date shapes in order on the lower-cased text; a match whose calendar
construction raises is caught and the next pattern is tried. -/
def extract_application_deadline (text : Str) : Option PDate :=
  if text = [] then none
  else
    let low := lowerS text
    let c1 := match searchWith dlP1At low with
      | some (d, m, y) => pyDate y m d
      | none => none
    match c1 with
    | some dt => some dt
    | none =>
      let c2 := match searchWith dlP2At low with
        | some (y, m, d) => pyDate y m d
        | none => none
      match c2 with
      | some dt => some dt
      | none =>
        let c3 := match searchWith dlP3At low with
          | some (d, m, y) => pyDate y m d
          | none => none
        match c3 with
        | some dt => some dt
        | none =>
          match searchWith dlP4At low with
          | some (m, d, y) => pyDate y m d
          | none => none

end FieldExtractor

/-- Case-insensitive prefix match against a lower-case pattern. -/
def strStartsCI : Str → Str → Bool
  | _, [] => true
  | [], _ :: _ => false
  | c :: s, p :: ps => (pyLower c = p) && strStartsCI s ps

/-- Word-boundary check before a match position (`pv` is the previous
character, `none` at the start of the string): the boundary holds when the
previous character is absent or not a word character (all patterns in this
development start with a word character). -/
def bdOK : Option Char → Bool
  | none => true
  | some p => !pyWordChar p

/-- Last character of the `n`-character span consumed at the head of `l`
(the character preceding the resумption point of a scan). -/
def lastOfTake (l : Str) (n : Nat) : Option Char := (l.take n).getLast?

/-- Generic single-pass `re.sub` scanner: `step` receives the previous
character and the rest of the input and returns `(replacement, previous
character after the match, rest after the match)` on a match; scanning
resumes after the matched span (non-overlapping leftmost substitution). -/
def scanSubF (step : Option Char → Str → Option (Str × Option Char × Str)) :
    Nat → Option Char → Str → Str
  | 0, _, l => l
  | _ + 1, _, [] => []
  | f + 1, pv, c :: t =>
    match step pv (c :: t) with
    | some (rep, pv2, rest) => rep ++ scanSubF step f pv2 rest
    | none => c :: scanSubF step f (some c) t

/-- Generic single-pass `re.sub` scanner. -/
def scanSub (step : Option Char → Str → Option (Str × Option Char × Str))
    (l : Str) : Str :=
  scanSubF step l.length none l

/-- Match a sequence of literal words separated by `\s+` (case-insensitive,
patterns lower-case), returning the rest of the input after the last word. -/
def matchSeqCI : List Str → Str → Option Str
  | [], l => some l
  | [w], l => if strStartsCI l w then some (l.drop w.length) else none
  | w :: ws, l =>
    if strStartsCI l w then
      let r := l.drop w.length
      let sp := r.takeWhile pySpace
      if sp = [] then none else matchSeqCI ws (r.drop sp.length)
    else none

/-- Step function for `re.sub(r'\b(phrase1|phrase2|...)\b', rep, ·,
flags=IGNORECASE)` where each phrase is a `\s+`-separated word sequence:
alternatives are tried in order at each position. -/
def subPhrasesStep (alts : List (List Str)) (rep : Str) (pv : Option Char)
    (l : Str) : Option (Str × Option Char × Str) :=
  if bdOK pv then
    alts.findSome? (fun ws =>
      match matchSeqCI ws l with
      | some rest =>
        if nextNonWord rest then
          some (rep, lastOfTake l (l.length - rest.length), rest)
        else none
      | none => none)
  else none

/-- Embedding of `re.sub(r'\b(phrase1|...)\b', rep, text, flags=IGNORECASE)`. -/
def subPhrases (alts : List (List Str)) (rep : Str) (l : Str) : Str :=
  scanSub (subPhrasesStep alts rep) l

/-- Embedding of `re.sub(rf'\bpat\b', rep, text, flags=IGNORECASE)` for a
single word `pat`. -/
def subWord (pat rep : Str) (l : Str) : Str := subPhrases [[pat]] rep l

/-- Canonical form of a string up to letter case and whitespace: whitespace
runs collapsed to single spaces, leading and trailing whitespace removed,
letters lower-cased.  Two strings "differ only by case or whitespace"
exactly when their canonical forms are equal. -/
def canon (s : Str) : Str := lowerS (stripS (collapseWs s))

/-- Variant of `canon` that keeps a leading-whitespace marker (a single
space); used to track tag-removal positions inside a string. -/
def canonA (s : Str) : Str := lowerS (rstripS (collapseWs s))

/-- The rest of a string after its first `>`. -/
def afterGt (t : Str) : Str := (t.dropWhile (fun d => !(d = '>'))).tail

/-- Lower-case the string parts of a substitution-step result (analysis
device for case-insensitivity of the scanners). -/
def lowerRes : Option (Str × Option Char × Str) → Option (Str × Option Char × Str)
  | none => none
  | some (r, q, t) => some (r, q.map pyLower, lowerS t)

namespace DataCleaner

/-- Embedding of `unicodedata.normalize('NFKD', text)`.  NFKD normalization
is the identity on ASCII text, which is the fragment this development models;
theorems that depend on this step carry an ASCII hypothesis. -/
def nfkd (s : Str) : Str := s

/-- The character class kept by `DataCleaner.clean_text`:
`[^\w\sঀ-৿.,()-]` is removed. -/
def allowedChar (c : Char) : Bool :=
  pyWordChar c || pySpace c || (0x980 ≤ c.toNat && c.toNat ≤ 0x9FF) ||
    c = '.' || c = ',' || c = '(' || c = ')' || c = '-'

/-- Removal of characters outside the allowed class. -/
def filterAllowed (l : Str) : Str := l.filter allowedChar

/-- Embedding of `DataCleaner.clean_text`: Unicode-normalize, remove HTML
tags, collapse whitespace runs, remove disallowed characters, strip. -/
def clean_text (text : Str) : Str :=
  if text = [] then []
  else stripS (filterAllowed (collapseWs (stripTags (nfkd text))))

/-- The `title_mappings` table of `DataCleaner.__init__` (insertion order). -/
def title_mappings : List (Str × Str) :=
  [("asst".data, "Assistant".data), ("sr".data, "Senior".data), ("jr".data, "Junior".data),
   ("mgr".data, "Manager".data), ("exec".data, "Executive".data),
   ("tech".data, "Technical".data), ("admin".data, "Administrative".data)]

/-- The stop words kept lower-case by the title casing of
`DataCleaner.clean_title`. -/
def titleStop : List Str :=
  ["of".data, "and".data, "in".data, "for".data, "at".data]

/-- Embedding of `DataCleaner.clean_title`: clean, expand abbreviations,
strip boilerplate phrases, re-collapse, then stop-word-aware title casing. -/
def clean_title (title : Str) : Str :=
  if title = [] then []
  else
    let t := clean_text title
    let t := title_mappings.foldl (fun s p => subWord p.1 p.2 s) t
    let t := subPhrases
      [["post".data, "of".data], ["position".data, "of".data], ["job".data, "of".data]] [] t
    let t := subPhrases [["recruitment".data], ["hiring".data], ["vacancy".data]] [] t
    let t := subPhrases [["advertisement".data], ["circular".data]] [] t
    let t := stripS (collapseWs t)
    joinSep " ".data ((pySplit t).map (fun w =>
      if titleStop.contains (lowerS w) then lowerS w else pyCapitalize w))

/-- The `department_mappings` table of `DataCleaner.__init__` (insertion
order; first substring hit wins). -/
def department_mappings : List (Str × Str) :=
  [("ict division".data, "Information and Communication Technology Division".data),
   ("rhd".data, "Roads and Highways Department".data),
   ("lged".data, "Local Government Engineering Department".data),
   ("bsti".data, "Bangladesh Standards and Testing Institution".data),
   ("btrc".data, "Bangladesh Telecommunication Regulatory Commission".data),
   ("doe".data, "Department of Environment".data),
   ("dae".data, "Department of Agricultural Extension".data),
   ("dghs".data, "Directorate General of Health Services".data),
   ("bcs".data, "Bangladesh Civil Service".data),
   ("ntrca".data, "Non-Government Teachers Registration and Certification Authority".data)]

/-- Match the regex `the?` followed by a word boundary: `the` is preferred
(greedy optional), falling back to `th`. -/
def matchThe (l : Str) : Option Str :=
  if strStartsCI l "the".data && nextNonWord (l.drop 3) then some (l.drop 3)
  else if strStartsCI l "th".data && nextNonWord (l.drop 2) then some (l.drop 2)
  else none

/-- Step function for
`re.sub(r'\b(ministry\s+of\s+the?|department\s+of\s+the?)\b', '', ·)`. -/
def deptP1Step (pv : Option Char) (l : Str) : Option (Str × Option Char × Str) :=
  if bdOK pv then
    (["ministry".data, "department".data] : List Str).findSome? (fun w =>
      match matchSeqCI [w, "of".data] l with
      | some r1 =>
        let sp := r1.takeWhile pySpace
        if sp = [] then none
        else
          match matchThe (r1.drop sp.length) with
          | some rest => some ([], lastOfTake l (l.length - rest.length), rest)
          | none => none
      | none => none)
  else none

/-- The stop words kept lower-case by the department casing. -/
def deptStop : List Str :=
  ["of".data, "and".data, "the".data, "in".data, "for".data]

/-- Embedding of `DataCleaner.normalize_department`: lower-case and clean,
return the first abbreviation-table hit, else strip generic prefixes and
apply stop-word-aware capitalization. -/
def normalize_department (department : Str) : Str :=
  if department = [] then []
  else
    let d := clean_text (lowerS department)
    match lookupSub d department_mappings with
    | some v => v
    | none =>
      let d := scanSub deptP1Step d
      let d := subPhrases
        [["government".data, "of".data, "bangladesh".data],
         ["bangladesh".data, "government".data]] [] d
      stripS (joinSep " ".data ((pySplit d).map (fun w =>
        if deptStop.contains w then lowerS w else pyCapitalize w)))

/-- The location alias table of `DataCleaner.normalize_location` (insertion
order; first substring hit wins). -/
def location_mappings : List (Str × Str) :=
  [("chittagong".data, "Chittagong".data), ("chattogram".data, "Chittagong".data),
   ("dhaka".data, "Dhaka".data), ("sylhet".data, "Sylhet".data),
   ("rajshahi".data, "Rajshahi".data), ("khulna".data, "Khulna".data),
   ("barisal".data, "Barisal".data), ("barishal".data, "Barisal".data),
   ("rangpur".data, "Rangpur".data), ("mymensingh".data, "Mymensingh".data)]

/-- Embedding of `DataCleaner.normalize_location`. -/
def normalize_location (location : Str) : Str :=
  if location = [] then []
  else
    let l := clean_text (lowerS location)
    match lookupSub l location_mappings with
    | some v => v
    | none =>
      let l := subPhrases
        [["district".data], ["division".data], ["upazila".data], ["thana".data],
         ["area".data]] [] l
      let l := subPhrases [["bangladesh".data]] [] l
      stripS (joinSep " ".data ((pySplit l).map pyCapitalize))

/-- Currency symbols removed by `re.sub(r'[৳$€£]', '', salary)`. -/
def stripCurrency (l : Str) : Str :=
  l.filter (fun c => !(c = '৳' ∨ c = '$' ∨ c = '€' ∨ c = '£'))

/-- Step for the single-pass comma-removal `re.sub(r'(\d+),(\d+)', r'\1\2', ·)`. -/
def commaNumStep (_pv : Option Char) (l : Str) : Option (Str × Option Char × Str) :=
  match l.span Char.isDigit with
  | ([], _) => none
  | (d1, r1) =>
    match r1 with
    | c :: r2 =>
      if c = ',' then
        match r2.span Char.isDigit with
        | ([], _) => none
        | (d2, r3) => some (d1 ++ d2, (d2.getLast?), r3)
      else none
    | [] => none

/-- Position matcher for the salary pattern
`(\d+)\s*(?:to|-)?\s*(\d+)?\s*(?:bdt|per\s+month)?`, returning the two
number groups (everything after the first is optional). -/
def salDcP1At (l : Str) : Option (Str × Option Str) :=
  match l.span Char.isDigit with
  | ([], _) => none
  | (d1, r1) =>
    let r2 := r1.dropWhile pySpace
    let r3 :=
      if strStarts r2 "to".data then r2.drop 2
      else if strStarts r2 "-".data then r2.drop 1
      else r2
    match (r3.dropWhile pySpace).span Char.isDigit with
    | ([], _) => some (d1, none)
    | (d2, _) => some (d1, some d2)

/-- Position matcher for `grade\s*(\d+)` returning the number group. -/
def salDcP2At (l : Str) : Option (Str × Option Str) :=
  if strStarts l "grade".data then
    match ((l.drop 5).dropWhile pySpace).span Char.isDigit with
    | ([], _) => none
    | (d, _) => some (d, none)
  else none

/-- Position matcher for `pay\s+scale[:\s]+(\d+(?:,\d+)*)\s*-\s*(\d+(?:,\d+)*)`. -/
def salDcP3At (l : Str) : Option (Str × Option Str) :=
  if strStarts l "pay".data then
    match ws1 (l.drop 3) with
    | none => none
    | some r1 =>
      if strStarts r1 "scale".data then
        let r2 := r1.drop 5
        let cs := r2.takeWhile (fun c => c = ':' || pySpace c)
        if cs = [] then none
        else
          match numComma (r2.drop cs.length) with
          | none => none
          | some (n1, r3) =>
            let r4 := r3.dropWhile pySpace
            match r4 with
            | c :: r5 =>
              if c = '-' then
                match numComma (r5.dropWhile pySpace) with
                | some (n2, _) => some (n1, some n2)
                | none => none
              else none
            | [] => none
      else none
  else none

/-- Embedding of `DataCleaner.clean_salary`: clean, strip currency marks,
normalize currency words to `BDT`, strip thousands separators, then format
the first matching pattern as a range or single value; fall back to the
title-cased cleaned text or `None`. -/
def clean_salary (salary : Str) : Option Str :=
  if salary = [] then none
  else
    let s := clean_text (lowerS salary)
    let s := stripCurrency s
    let s := subPhrases
      [["taka".data], ["tk".data], ["bdt".data], ["rupees".data], ["rupee".data]]
      "BDT".data s
    let s := scanSub commaNumStep s
    let fmt : Str × Option Str → Str := fun g =>
      match g.2 with
      | some b => g.1 ++ "-".data ++ b ++ " BDT".data
      | none => g.1 ++ " BDT".data
    match searchWith salDcP1At s with
    | some g => some (fmt g)
    | none =>
      match searchWith salDcP2At s with
      | some g => some (fmt g)
      | none =>
        match searchWith salDcP3At s with
        | some g => some (fmt g)
        | none => if stripS s = [] then none else some (pyTitle (stripS s))

/-- The `skill_mappings` table of `DataCleaner.clean_skills`. -/
def skill_mappings : List (Str × Str) :=
  [("ms office".data, "Microsoft Office".data), ("ms word".data, "Microsoft Word".data),
   ("ms excel".data, "Microsoft Excel".data), ("powerpoint".data, "Microsoft PowerPoint".data),
   ("js".data, "JavaScript".data), ("html5".data, "HTML".data), ("css3".data, "CSS".data),
   ("mysql".data, "MySQL".data), ("postgresql".data, "PostgreSQL".data)]

/-- Embedding of `DataCleaner.clean_skills`: clean each skill, drop short or
generic entries, normalize via the table or title-case, collect into a set
and return it sorted. -/
def clean_skills (skills : List Str) : List Str :=
  if skills = [] then []
  else
    let collected := skills.foldl (fun acc skill =>
      if skill = [] then acc
      else
        let s := clean_text (lowerS skill)
        if s.length ≤ 2 ||
            (["a".data, "an".data, "the".data, "is".data, "are".data] : List Str).contains s then
          acc
        else
          let ns :=
            match lookupExact s skill_mappings with
            | some v => v
            | none => pyTitle s
          acc ++ [ns]) []
    sortStrs collected.dedup

/-- Embedding of `DataCleaner.validate_date`.  `datetime` values are
modelled as rational timestamps measured in days, so the window
`[now - 365 days, now + 730 days]` is `[now - 365, now + 730]`. -/
def validate_date (dateObj : Option ℚ) (now : ℚ) : Option ℚ :=
  match dateObj with
  | none => none
  | some d => if now - 365 ≤ d ∧ d ≤ now + 730 then some d else none

/-- Step for `re.sub(r'\b(\w+)\b\s+\1\b', r'\1', ·)` (case-sensitive
backreference): a maximal word, whitespace, the same word again with a
trailing boundary, replaced by the single word. -/
def repWordStep (pv : Option Char) (l : Str) : Option (Str × Option Char × Str) :=
  if bdOK pv then
    match l.span pyWordChar with
    | ([], _) => none
    | (w, r1) =>
      let sp := r1.takeWhile pySpace
      if sp = [] then none
      else
        let r2 := r1.drop sp.length
        if strStarts r2 w && nextNonWord (r2.drop w.length) then
          some (w, w.getLast?, r2.drop w.length)
        else none
  else none

/-- Spans (start, end) of the non-overlapping leftmost matches of
`\bword\b` (case-insensitive), as produced by `re.finditer`. -/
def findSpansF (w : Str) : Nat → Nat → Bool → Str → List (Nat × Nat)
  | 0, _, _, _ => []
  | _ + 1, _, _, [] => []
  | f + 1, pos, pv, c :: t =>
    if !pv && strStartsCI (c :: t) w && nextNonWord ((c :: t).drop w.length) then
      (pos, pos + w.length) :: findSpansF w f (pos + w.length) true ((c :: t).drop w.length)
    else findSpansF w f (pos + 1) (pyWordChar c) t

/-- Spans of `\bword\b` matches. -/
def findSpans (w : Str) (l : Str) : List (Nat × Nat) := findSpansF w l.length 0 false l

/-- Embedding of `DataCleaner.clean_description`: clean, collapse immediate
word repetitions, then for each over-used common word remove the matches
after the first two — applying the spans of the original scan to the
progressively shortened string, exactly as the source does. -/
def clean_description (description : Str) : Str :=
  if description = [] then []
  else
    let d := clean_text description
    let d := scanSub repWordStep d
    let d := (["job".data, "position".data, "role".data, "responsibility".data,
               "requirement".data] : List Str).foldl (fun s w =>
      let spans := findSpans w s
      if spans.length > 3 then
        (spans.drop 2).foldl (fun s2 sp => s2.take sp.1 ++ s2.drop sp.2) s
      else s) d
    stripS d

/-- Step for `re.sub(r'grade[:\s]*(\d+)', r'Grade \1', ·, flags=IGNORECASE)`. -/
def gradeSubStep (_pv : Option Char) (l : Str) : Option (Str × Option Char × Str) :=
  if strStartsCI l "grade".data then
    let r := l.drop 5
    let cs := r.takeWhile (fun c => c = ':' || pySpace c)
    match (r.drop cs.length).span Char.isDigit with
    | ([], _) => none
    | (d, rest) => some ("Grade ".data ++ d, d.getLast?, rest)
  else none

/-- Position matcher for `class[:\s]*([ivxl]+)` returning the roman-numeral
group. -/
def classAt (l : Str) : Option Str :=
  if strStartsCI l "class".data then
    let r := l.drop 5
    let cs := r.takeWhile (fun c => c = ':' || pySpace c)
    match (r.drop cs.length).span
        (fun c => pyLower c = 'i' || pyLower c = 'v' || pyLower c = 'x' || pyLower c = 'l') with
    | ([], _) => none
    | (rom, _) => some rom
  else none

/-- Step for `re.sub(r'pay\s+scale[:\s]*(\d+)', r'Pay Scale \1', ·,
flags=IGNORECASE)`. -/
def payScaleSubStep (_pv : Option Char) (l : Str) : Option (Str × Option Char × Str) :=
  if strStartsCI l "pay".data then
    match ws1 (l.drop 3) with
    | none => none
    | some r1 =>
      if strStartsCI r1 "scale".data then
        let r2 := r1.drop 5
        let cs := r2.takeWhile (fun c => c = ':' || pySpace c)
        match (r2.drop cs.length).span Char.isDigit with
        | ([], _) => none
        | (d, rest) => some ("Pay Scale ".data ++ d, d.getLast?, rest)
      else none
  else none

/-- Embedding of `DataCleaner.clean_grade`: apply the grade substitution,
then — if the class pattern matches — replace the whole value by
`Class <upper-cased numeral>`, then apply the pay-scale substitution, and
finally strip and title-case (or `None` when empty). -/
def clean_grade (grade : Str) : Option Str :=
  if grade = [] then none
  else
    let g := clean_text (lowerS grade)
    let g := scanSub gradeSubStep g
    let g :=
      match searchWith classAt g with
      | some rom => "Class ".data ++ rom.map pyUpper
      | none => g
    let g := scanSub payScaleSubStep g
    if stripS g = [] then none else some (pyTitle (stripS g))

/-- Loosely-typed numeric input of `DataCleaner.clean_numeric_field`:
`None`, a native integer, or a string. -/
inductive PyVal where
  | vnone
  | vint (n : ℤ)
  | vstr (s : Str)
deriving DecidableEq

/-- Field-specific range validation of `DataCleaner.clean_numeric_field`:
vacancies 1–10000, age 15–70, any positive integer otherwise. -/
def numCheck (fieldType : String) (v : ℤ) : Option ℤ :=
  if fieldType = "vacancies" then (if 1 ≤ v ∧ v ≤ 10000 then some v else none)
  else if fieldType = "age" then (if 15 ≤ v ∧ v ≤ 70 then some v else none)
  else (if 0 < v then some v else none)

/-- Embedding of `DataCleaner.clean_numeric_field`: extract the first digit
run from a string (or accept a native integer), then validate the
field-specific domain, returning `none` instead of an out-of-range value. -/
def clean_numeric_field (value : PyVal) (fieldType : String) : Option ℤ :=
  match value with
  | .vnone => none
  | .vint n => numCheck fieldType n
  | .vstr s =>
    match firstNumber s with
    | none => none
    | some n => numCheck fieldType (n : ℤ)

/-- Validation part of `DataCleaner.clean_url`: the regex
`^https?://[^\s/$.?#].[^\s]*$` (the input has been stripped, so the
before-final-newline acceptance of `$` cannot fire). -/
def urlOk (u : Str) : Bool :=
  let afterScheme : Option Str :=
    if strStarts u "https://".data then some (u.drop 8)
    else if strStarts u "http://".data then some (u.drop 7)
    else none
  match afterScheme with
  | none => false
  | some r =>
    match r with
    | c1 :: c2 :: rest =>
      !pySpace c1 && !(c1 = '/' ∨ c1 = '$' ∨ c1 = '.' ∨ c1 = '?' ∨ c1 = '#') &&
        !(c2 = '\n') && rest.all (fun c => !pySpace c)
    | _ => false

/-- Embedding of `DataCleaner.clean_url`: strip, prepend `https://` when no
scheme is present, validate. -/
def clean_url (url : Str) : Option Str :=
  if url = [] then none
  else
    let u := stripS url
    let u :=
      if strStarts u "http://".data || strStarts u "https://".data then u
      else "https://".data ++ u
    if urlOk u then some u else none

/-- Input record of `DataCleaner.validate_job_data`: the keys it reads via
`job_data.get`, with string-typed text fields, loosely-typed numeric fields,
a list of skills, and datetimes modelled as rational day timestamps. -/
structure RawJobData where
  title : Str := []
  department : Str := []
  location : Str := []
  grade : Str := []
  salary : Str := []
  description : Str := []
  education : Str := []
  experience : Str := []
  application_link : Str := []
  source_url : Str := []
  vacancies : PyVal := .vnone
  age_min : PyVal := .vnone
  age_max : PyVal := .vnone
  skills : List Str := []
  posting_date : Option ℚ := none
  deadline_date : Option ℚ := none
deriving DecidableEq

/-- Output record of `DataCleaner.validate_job_data` (the `cleaned` dict). -/
structure CleanedJob where
  title : Str
  department : Str
  location : Str
  grade : Option Str
  salary : Option Str
  description : Str
  vacancies : Option ℤ
  age_min : Option ℤ
  age_max : Option ℤ
  skills : List Str
  posting_date : Option ℚ
  deadline_date : Option ℚ
  education : Str
  experience : Str
  application_link : Option Str
  source_url : Option Str
deriving DecidableEq

/-- Embedding of `DataCleaner.validate_job_data`: an empty required field
(after stripping) invalidates the whole record (`{}`, modelled `none`);
otherwise every field is cleaned individually.  `now` is the current time
used by date validation. -/
def validate_job_data (jd : RawJobData) (now : ℚ) : Option CleanedJob :=
  if (jd.title = [] ∨ stripS jd.title = []) ∨
      (jd.department = [] ∨ stripS jd.department = []) ∨
      (jd.location = [] ∨ stripS jd.location = []) then none
  else
    some
      { title := clean_title jd.title
        department := normalize_department jd.department
        location := normalize_location jd.location
        grade := clean_grade jd.grade
        salary := clean_salary jd.salary
        description := clean_description jd.description
        vacancies := clean_numeric_field jd.vacancies "vacancies"
        age_min := clean_numeric_field jd.age_min "age"
        age_max := clean_numeric_field jd.age_max "age"
        skills := clean_skills jd.skills
        posting_date := validate_date jd.posting_date now
        deadline_date := validate_date jd.deadline_date now
        education := clean_text jd.education
        experience := clean_text jd.experience
        application_link := clean_url jd.application_link
        source_url := clean_url jd.source_url }

end DataCleaner

/-- Decimal digits of a natural number (worker with fuel). -/
def natReprF : Nat → Nat → Str
  | 0, _ => []
  | f + 1, n =>
    if n < 10 then [Char.ofNat (48 + n)]
    else natReprF f (n / 10) ++ [Char.ofNat (48 + n % 10)]

/-- Decimal representation of a natural number. -/
def natRepr (n : Nat) : Str := natReprF (n + 1) n

/-- Python `str(int)`. -/
def intRepr (n : ℤ) : Str :=
  if n < 0 then '-' :: natRepr n.natAbs else natRepr n.natAbs

/-- Zero-padded decimal representation. -/
def zeroPad (width : Nat) (n : Nat) : Str :=
  List.replicate (width - (natRepr n).length) '0' ++ natRepr n

/-- Python `str(datetime)` shape `YYYY-MM-DD 00:00:00` (its content beyond
being non-empty is irrelevant to the quality score). -/
def dateRepr (d : PDate) : Str :=
  zeroPad 4 d.year ++ "-".data ++ zeroPad 2 d.month ++ "-".data ++ zeroPad 2 d.day ++
    " 00:00:00".data

namespace DataCleaner

/-- Loosely-typed value of a job-record mapping, as inspected by
`DataCleaner.calculate_data_quality_score`. -/
inductive QVal where
  | vnone
  | vstr (s : Str)
  | vint (n : ℤ)
  | vlist (l : List Str)
  | vdate (d : PDate)
deriving DecidableEq

/-- Python truthiness of a record value. -/
def pyTruthy : QVal → Bool
  | .vnone => false
  | .vstr s => s ≠ []
  | .vint n => n ≠ 0
  | .vlist l => l ≠ []
  | .vdate _ => true

/-- Python `str(value)` of a record value. -/
def pyStrOf : QVal → Str
  | .vnone => "None".data
  | .vstr s => s
  | .vint n => intRepr n
  | .vlist l =>
    '[' :: joinSep ", ".data (l.map (fun s => Char.ofNat 39 :: (s ++ [Char.ofNat 39]))) ++ [']']
  | .vdate d => dateRepr d

/-- The populatedness test `job_data.get(field) and str(job_data[field]).strip()`. -/
def popStd (o : Option QVal) : Bool :=
  match o with
  | none => false
  | some v => pyTruthy v && stripS (pyStrOf v) ≠ []

/-- The populatedness test of the additional-fields loop:
`value and (isinstance(value, list) and len(value) > 0 or str(value).strip())`. -/
def popAdd (o : Option QVal) : Bool :=
  match o with
  | none => false
  | some v =>
    pyTruthy v &&
      ((match v with | .vlist l => l.length > 0 | _ => false) || stripS (pyStrOf v) ≠ [])

/-- A job record as consumed by the quality scorer: a mapping of field names
to loosely-typed values (`job_data`). -/
abbrev JobData := List (String × QVal)

/-- Embedding of `DataCleaner.calculate_data_quality_score`: 40 points over
the required fields, 30 over the important fields, 20 over the additional
fields, up to 10 completeness bonus, capped at 100.  Python float arithmetic
is modelled by exact rationals. -/
def calculate_data_quality_score (jd : JobData) : ℚ :=
  if jd = [] then 0
  else
    let getQ : String → Option QVal := fun f => jd.lookup f
    let s1 := (["title", "department", "location"] : List String).foldl
      (fun acc f => if popStd (getQ f) then acc + 40 / 3 else acc) (0 : ℚ)
    let s2 := (["description", "application_link", "deadline_date"] : List String).foldl
      (fun acc f => if popStd (getQ f) then acc + 30 / 3 else acc) s1
    let s3 := (["salary", "vacancies", "skills", "education"] : List String).foldl
      (fun acc f => if popAdd (getQ f) then acc + 20 / 4 else acc) s2
    let filled := (jd.map Prod.snd).countP (fun v => pyTruthy v && stripS (pyStrOf v) ≠ [])
    let total := jd.length
    let s4 := if total > 0 then s3 + 10 * ((filled : ℚ) / (total : ℚ)) else s3
    min s4 100

/-- A record of a batch passed to `DataCleaner.deduplicate_jobs`: the three
key fields read via `.get`, plus an opaque payload standing for the rest of
the dict (it lets two records with equal keys be distinct values). -/
structure JobRec where
  title : Str := []
  department : Str := []
  location : Str := []
  payload : Nat := 0
deriving DecidableEq

/-- The dedup key of `DataCleaner.deduplicate_jobs`:
`'|'.join(part.lower().strip() for part in key_parts if part)` over the
cleaned title, normalized department and normalized location. -/
def dedupKey (j : JobRec) : Str :=
  let keyParts := [clean_title j.title, normalize_department j.department,
    normalize_location j.location]
  joinSep "|".data ((keyParts.filter (fun p => p ≠ [])).map (fun p => stripS (lowerS p)))

/-- Worker for `deduplicate_jobs` carrying the `seen` set. -/
def dedupF : List Str → List JobRec → List JobRec
  | _, [] => []
  | seen, j :: t =>
    let k := dedupKey j
    if !seen.contains k && k ≠ [] then j :: dedupF (k :: seen) t
    else dedupF seen t

/-- Embedding of `DataCleaner.deduplicate_jobs`: keep the first record of
each non-empty key, drop later ones and all empty-key records. -/
def deduplicate_jobs (jobs : List JobRec) : List JobRec := dedupF [] jobs

end DataCleaner

/-- Value of a Python call that did not raise. -/
def PyRes.toOption {α : Type} : PyRes α → Option α
  | .ok a => some a
  | .exn _ => none

/-- Embedding of the `ParsedJob` dataclass (the CanonicalJob entity). -/
structure ParsedJob where
  job_id : Str
  title : Str
  department : Str
  location : Str
  grade : Str
  salary : Option Str
  vacancies : Option Nat
  education : Option Str
  experience : Str
  age_min : Option Nat
  age_max : Option Nat
  skills : List Str
  description : Str
  posting_date : Option PDate
  deadline_date : Option PDate
  application_link : Str
  source_url : Str
  source_site : Str
deriving DecidableEq

namespace JobParser

/-- Embedding of `JobParser.parse_job`: generate the identity, clean the
mandatory fields, raise `ValueError` when any of them is empty after
cleaning, then extract the remaining fields and assemble the `ParsedJob`.
The uncaught exception from `_extract_age_range` propagates (the `except`
clause re-raises). -/
def parse_job (raw : RawRecord) : PyRes ParsedJob :=
  let job_id := generate_job_id raw
  let title := clean_text raw.title
  let department := clean_text raw.department
  let location := normalize_location raw.location
  if title = [] ∨ department = [] ∨ location = [] then .exn "Missing mandatory fields"
  else
    match extract_age_range raw.age with
    | .exn m => .exn m
    | .ok ages =>
      .ok
        { job_id := job_id
          title := title
          department := department
          location := location
          grade := clean_text raw.grade
          salary := extract_salary raw.salary
          vacancies := extract_vacancies raw.vacancies
          education := extract_education (raw.description ++ [' '] ++ raw.education)
          experience := clean_text raw.experience
          age_min := ages.1
          age_max := ages.2
          skills := extract_skills (raw.description ++ [' '] ++ raw.requirements)
          description := clean_text raw.description
          posting_date := parse_date raw.posting_date
          deadline_date := parse_date raw.deadline_date
          application_link := raw.application_link
          source_url := raw.source_url
          source_site := raw.source_site }

end JobParser


/-! ## Claim theorems -/

/-- Claim C4: the JobParser age-range extraction satisfies the reference
input/output pairs: `"25 to 35 years"` yields `(25, 35)`, `"maximum 35
years"` yields `(None, 35)`, `"minimum 18 years"` yields `(18, None)`,
`"30 years"` yields `(30, 30)`, and empty input yields `(None, None)`. -/
theorem extract_age_range_reference_pairs :
    JobParser.extract_age_range "25 to 35 years".data = .ok (some 25, some 35) ∧
    JobParser.extract_age_range "maximum 35 years".data = .ok (none, some 35) ∧
    JobParser.extract_age_range "minimum 18 years".data = .ok (some 18, none) ∧
    JobParser.extract_age_range "30 years".data = .ok (some 30, some 30) ∧
    JobParser.extract_age_range [] = .ok (none, none) := by
  decide

/-- Claim C7 (code bug): `JobParser._extract_age_range` is not total on
string input.  On `"maximum 35 years - negotiable"` the `maximum` pattern
matches, the text contains a dash, and the code reads the absent second
match group, raising `IndexError` instead of returning an absent value. -/
theorem extract_age_range_raises_on_malformed_text :
    JobParser.extract_age_range "maximum 35 years - negotiable".data =
      .exn "no such group" := by
  decide

/-- Claim C2 (code bug): `parse_job` does not return a `ParsedJob` for every
record whose title, department and location are non-empty after cleaning —
the record below has all three, yet `parse_job` raises `IndexError` out of
`_extract_age_range` instead of producing a job. -/
theorem parse_job_raises_despite_mandatory_fields :
    JobParser.parse_job
      { title := "Officer".data, department := "Admin".data, location := "Dhaka".data,
        age := "maximum 35 years - negotiable".data } =
      .exn "no such group" := by
  decide

/-- Claim C1 (counterexample): two records whose titles, departments and
locations normalize to the same triple (`"Dhaka"` versus `"dhaka"` both
normalize to `"Dhaka"`) receive different job identities, because
`_generate_job_id` hashes the raw — not normalized — field concatenation. -/
theorem job_id_not_normalized_counterexample :
    JobParser.normTriple
        { title := "a".data, department := "b".data, location := "Dhaka".data } =
      JobParser.normTriple
        { title := "a".data, department := "b".data, location := "dhaka".data } ∧
    JobParser.generate_job_id
        { title := "a".data, department := "b".data, location := "Dhaka".data } ≠
      JobParser.generate_job_id
        { title := "a".data, department := "b".data, location := "dhaka".data } := by
  decide

/-- Claim C1 (amended): the job identity is a pure function of the raw
title+department+location concatenation — and of nothing else (not the
description or the timestamps, which do not enter `key_data`). -/
theorem job_id_pure_function_of_raw_key (r1 r2 : RawRecord)
    (h : JobParser.key_data r1 = JobParser.key_data r2) :
    JobParser.generate_job_id r1 = JobParser.generate_job_id r2 := by
  unfold JobParser.generate_job_id
  rw [h]

/-- Witness for `job_id_pure_function_of_raw_key`: two records with equal
raw concatenations but different descriptions and posting dates get the same
identity. -/
theorem job_id_pure_function_of_raw_key_witness :
    JobParser.key_data
        { title := "ab".data, department := [], location := "c".data,
          description := "x".data, posting_date := "2024-01-01".data } =
      JobParser.key_data
        { title := "a".data, department := "b".data, location := "c".data,
          description := "y".data } ∧
    JobParser.generate_job_id
        { title := "ab".data, department := [], location := "c".data,
          description := "x".data, posting_date := "2024-01-01".data } =
      JobParser.generate_job_id
        { title := "a".data, department := "b".data, location := "c".data,
          description := "y".data } :=
  ⟨by decide,
   job_id_pure_function_of_raw_key _ _ (by decide)⟩

/-- Claim C9: the four canonical date shapes all parse to 31 December 2024
in both date extractors, `"invalid date"` yields no match, and
structurally well-formed but calendar-invalid inputs (day 32, 30 February)
yield no match rather than an error. -/
theorem date_extraction_reference_behavior :
    JobParser.parse_date "2024-12-31".data = some ⟨2024, 12, 31⟩ ∧
    JobParser.parse_date "31-12-2024".data = some ⟨2024, 12, 31⟩ ∧
    JobParser.parse_date "31/12/2024".data = some ⟨2024, 12, 31⟩ ∧
    JobParser.parse_date "December 31, 2024".data = some ⟨2024, 12, 31⟩ ∧
    JobParser.parse_date "invalid date".data = none ∧
    JobParser.parse_date "32-12-2024".data = none ∧
    JobParser.parse_date "30-02-2024".data = none ∧
    FieldExtractor.extract_application_deadline "2024-12-31".data = some ⟨2024, 12, 31⟩ ∧
    FieldExtractor.extract_application_deadline "31-12-2024".data = some ⟨2024, 12, 31⟩ ∧
    FieldExtractor.extract_application_deadline "31/12/2024".data = some ⟨2024, 12, 31⟩ ∧
    FieldExtractor.extract_application_deadline "December 31, 2024".data = some ⟨2024, 12, 31⟩ ∧
    FieldExtractor.extract_application_deadline "invalid date".data = none ∧
    FieldExtractor.extract_application_deadline "32-12-2024".data = none ∧
    FieldExtractor.extract_application_deadline "30-02-2024".data = none := by
  decide

/-- Claim C8 (counterexample): the pipeline does not enforce
`age_min <= age_max`, and the parse path does not enforce the numeric
domains.  A cleaned record can carry `age_min = 50 > age_max = 20` (both in
the age domain, so neither is nulled), and a parsed record can carry
`vacancies = 50000` (outside 1–10000) and the out-of-order pair `(35, 25)`
taken verbatim from `"35 to 25"`. -/
theorem age_order_and_parse_domain_counterexample :
    (DataCleaner.validate_job_data
        { title := "a".data, department := "b".data, location := "c".data,
          age_min := .vint 50, age_max := .vint 20 } 0).map
        (fun c => (c.age_min, c.age_max)) = some (some 50, some 20) ∧
    (JobParser.parse_job
        { title := "a".data, department := "b".data, location := "Dhaka".data,
          vacancies := "50000".data, age := "35 to 25".data }).toOption.map
        (fun j => (j.vacancies, j.age_min, j.age_max)) =
      some (some 50000, some 35, some 25) := by
  decide

/-- Domain of the vacancies check of `clean_numeric_field`. -/
theorem numCheck_vacancies_domain (v : ℤ) :
    DataCleaner.numCheck "vacancies" v = none ∨
      ∃ n, DataCleaner.numCheck "vacancies" v = some n ∧ 1 ≤ n ∧ n ≤ 10000 := by
  unfold DataCleaner.numCheck
  rw [if_pos rfl]
  split
  · next h => exact Or.inr ⟨v, rfl, h.1, h.2⟩
  · exact Or.inl rfl

/-- Domain of the age check of `clean_numeric_field`. -/
theorem numCheck_age_domain (v : ℤ) :
    DataCleaner.numCheck "age" v = none ∨
      ∃ n, DataCleaner.numCheck "age" v = some n ∧ 15 ≤ n ∧ n ≤ 70 := by
  unfold DataCleaner.numCheck
  rw [if_neg (by decide : ¬("age" : String) = "vacancies"), if_pos rfl]
  split
  · next h => exact Or.inr ⟨v, rfl, h.1, h.2⟩
  · exact Or.inl rfl

/-- Domain of the vacancies field after `clean_numeric_field`. -/
theorem clean_numeric_field_vacancies_domain (v : DataCleaner.PyVal) :
    DataCleaner.clean_numeric_field v "vacancies" = none ∨
      ∃ n, DataCleaner.clean_numeric_field v "vacancies" = some n ∧ 1 ≤ n ∧ n ≤ 10000 := by
  cases v with
  | vnone => exact Or.inl rfl
  | vint n => exact numCheck_vacancies_domain n
  | vstr s =>
    rcases h : firstNumber s with _ | n <;>
      simp only [DataCleaner.clean_numeric_field, h]
    · exact Or.inl trivial
    · exact numCheck_vacancies_domain _

/-- Domain of an age field after `clean_numeric_field`. -/
theorem clean_numeric_field_age_domain (v : DataCleaner.PyVal) :
    DataCleaner.clean_numeric_field v "age" = none ∨
      ∃ n, DataCleaner.clean_numeric_field v "age" = some n ∧ 15 ≤ n ∧ n ≤ 70 := by
  cases v with
  | vnone => exact Or.inl rfl
  | vint n => exact numCheck_age_domain n
  | vstr s =>
    rcases h : firstNumber s with _ | n <;>
      simp only [DataCleaner.clean_numeric_field, h]
    · exact Or.inl trivial
    · exact numCheck_age_domain _

/-- Claim C8 (amended): on every record produced by the batch cleaner, the
numeric fields obey their stated domains or are nulled (vacancies 1–10000,
ages 15–70); `age_min <= age_max` is not enforced anywhere — when both
bounds are present they may be out of order — and the parse path stores
numeric fields without any domain validation. -/
theorem cleaned_numeric_fields_in_domain (jd : DataCleaner.RawJobData) (now : ℚ)
    (c : DataCleaner.CleanedJob) (h : DataCleaner.validate_job_data jd now = some c) :
    (c.vacancies = none ∨ ∃ n, c.vacancies = some n ∧ 1 ≤ n ∧ n ≤ 10000) ∧
    (c.age_min = none ∨ ∃ n, c.age_min = some n ∧ 15 ≤ n ∧ n ≤ 70) ∧
    (c.age_max = none ∨ ∃ n, c.age_max = some n ∧ 15 ≤ n ∧ n ≤ 70) := by
  unfold DataCleaner.validate_job_data at h
  split at h
  · exact absurd h (by simp)
  · obtain rfl : _ = c := Option.some.inj h
    exact ⟨clean_numeric_field_vacancies_domain _,
      clean_numeric_field_age_domain _, clean_numeric_field_age_domain _⟩

/-- Witness for `cleaned_numeric_fields_in_domain` at a concrete record. -/
theorem cleaned_numeric_fields_in_domain_witness :
    DataCleaner.validate_job_data
        { title := "a".data, department := "b".data, location := "c".data,
          age_min := .vint 50, age_max := .vint 20 } 0 =
      some
        { title := "A".data, department := "B".data, location := "C".data,
          grade := none, salary := none, description := [], vacancies := none,
          age_min := some 50, age_max := some 20, skills := [], posting_date := none,
          deadline_date := none, education := [], experience := [],
          application_link := none, source_url := none } ∧
    ((some 50 : Option ℤ) = none ∨ ∃ n, (some 50 : Option ℤ) = some n ∧ 15 ≤ n ∧ n ≤ 70) := by
  refine ⟨by decide, ?_⟩
  have h := cleaned_numeric_fields_in_domain
    { title := "a".data, department := "b".data, location := "c".data,
      age_min := .vint 50, age_max := .vint 20 } 0
    { title := "A".data, department := "B".data, location := "C".data,
      grade := none, salary := none, description := [], vacancies := none,
      age_min := some 50, age_max := some 20, skills := [], posting_date := none,
      deadline_date := none, education := [], experience := [],
      application_link := none, source_url := none } (by decide)
  exact h.2.1

/-- A record whose dedup key is empty is skipped by the dedup scan wherever
it occurs, and the `seen` set is unchanged by it. -/
theorem dedupF_skip_empty_key (r : DataCleaner.JobRec)
    (h : DataCleaner.dedupKey r = []) :
    ∀ (u v : List DataCleaner.JobRec) (seen : List Str),
      DataCleaner.dedupF seen (u ++ r :: v) = DataCleaner.dedupF seen (u ++ v) := by
  intro u
  induction u with
  | nil =>
    intro v seen
    simp [DataCleaner.dedupF, h]
  | cons a u ih =>
    intro v seen
    simp only [List.cons_append, DataCleaner.dedupF]
    split
    · exact congrArg _ (ih v _)
    · exact ih v seen

/-- Claim C10: a record whose cleaned title, normalized department and
normalized location are all empty produces an empty dedup key and is dropped
from the batch output wherever it occurs — including as the first record of
the batch. -/
theorem dedup_drops_empty_key_records (u v : List DataCleaner.JobRec)
    (r : DataCleaner.JobRec)
    (h1 : DataCleaner.clean_title r.title = [])
    (h2 : DataCleaner.normalize_department r.department = [])
    (h3 : DataCleaner.normalize_location r.location = []) :
    DataCleaner.dedupKey r = [] ∧
    DataCleaner.deduplicate_jobs (u ++ r :: v) = DataCleaner.deduplicate_jobs (u ++ v) := by
  have hk : DataCleaner.dedupKey r = [] := by
    unfold DataCleaner.dedupKey
    rw [h1, h2, h3]
    rfl
  exact ⟨hk, dedupF_skip_empty_key r hk u v []⟩

/-- Witness for `dedup_drops_empty_key_records`: an all-empty first record
is dropped even though no earlier record holds its key. -/
theorem dedup_drops_empty_key_records_witness :
    DataCleaner.dedupKey { payload := 7 } = [] ∧
    DataCleaner.deduplicate_jobs
        [{ payload := 7 }, { title := "Officer".data, payload := 1 }] =
      DataCleaner.deduplicate_jobs [{ title := "Officer".data, payload := 1 }] :=
  dedup_drops_empty_key_records [] [{ title := "Officer".data, payload := 1 }]
    { payload := 7 } (by decide) (by decide) (by decide)

/-- A conditional-increment fold with a non-negative increment never
decreases below its initial value. -/
theorem foldl_if_ge (p : String → Bool) (k : ℚ) (hk : 0 ≤ k) :
    ∀ (l : List String) (init : ℚ),
      init ≤ l.foldl (fun acc f => if p f then acc + k else acc) init := by
  intro l
  induction l with
  | nil => intro init; exact le_refl _
  | cons f t ih =>
    intro init
    simp only [List.foldl_cons]
    refine le_trans ?_ (ih (if p f then init + k else init))
    split
    · linarith
    · exact le_refl _

/-- A conditional-increment fold over fields that all pass the test adds the
full share for each of them. -/
theorem foldl_if_eq_all (p : String → Bool) (k : ℚ) :
    ∀ (l : List String) (init : ℚ), (∀ f ∈ l, p f = true) →
      l.foldl (fun acc f => if p f then acc + k else acc) init = init + k * l.length := by
  intro l
  induction l with
  | nil => intro init _; simp
  | cons f t ih =>
    intro init h
    simp only [List.foldl_cons, List.length_cons]
    rw [if_pos (h f (by simp)), ih (init + k) (fun g hg => h g (by simp [hg]))]
    push_cast
    ring

/-- Claim C6: the data quality score always lies in `[0, 100]`, and a record
in which all required fields, all important fields and all additional fields
are populated scores at least 90. -/
theorem quality_score_bounds_and_full_record :
    (∀ jd : DataCleaner.JobData,
      0 ≤ DataCleaner.calculate_data_quality_score jd ∧
      DataCleaner.calculate_data_quality_score jd ≤ 100) ∧
    (∀ jd : DataCleaner.JobData,
      (∀ f ∈ (["title", "department", "location"] : List String),
        DataCleaner.popStd (jd.lookup f) = true) →
      (∀ f ∈ (["description", "application_link", "deadline_date"] : List String),
        DataCleaner.popStd (jd.lookup f) = true) →
      (∀ f ∈ (["salary", "vacancies", "skills", "education"] : List String),
        DataCleaner.popAdd (jd.lookup f) = true) →
      90 ≤ DataCleaner.calculate_data_quality_score jd) := by
  constructor
  · intro jd
    simp only [DataCleaner.calculate_data_quality_score]
    split
    · norm_num
    · have h1 := foldl_if_ge (fun f => DataCleaner.popStd (jd.lookup f)) (40 / 3)
        (by norm_num) ["title", "department", "location"] 0
      have h2 := foldl_if_ge (fun f => DataCleaner.popStd (jd.lookup f)) (30 / 3)
        (by norm_num) ["description", "application_link", "deadline_date"]
        (List.foldl (fun acc f => if DataCleaner.popStd (jd.lookup f) then acc + 40 / 3 else acc)
          0 ["title", "department", "location"])
      have h3 := foldl_if_ge (fun f => DataCleaner.popAdd (jd.lookup f)) (20 / 4)
        (by norm_num) ["salary", "vacancies", "skills", "education"]
        (List.foldl (fun acc f => if DataCleaner.popStd (jd.lookup f) then acc + 30 / 3 else acc)
          (List.foldl
            (fun acc f => if DataCleaner.popStd (jd.lookup f) then acc + 40 / 3 else acc)
            0 ["title", "department", "location"])
          ["description", "application_link", "deadline_date"])
      constructor
      · refine le_min ?_ (by norm_num)
        split
        · have hb : (0 : ℚ) ≤
              ((jd.map Prod.snd).countP
                  (fun v => DataCleaner.pyTruthy v && stripS (DataCleaner.pyStrOf v) ≠ []) : ℚ) /
                (jd.length : ℚ) :=
            div_nonneg (by positivity) (by positivity)
          linarith
        · linarith
      · exact min_le_right _ _
  · intro jd hreq himp hadd
    have hne : ¬jd = [] := by
      intro h
      subst h
      have := hreq "title" (by simp)
      simp [DataCleaner.popStd, List.lookup] at this
    simp only [DataCleaner.calculate_data_quality_score]
    rw [if_neg hne]
    have e1 := foldl_if_eq_all (fun f => DataCleaner.popStd (jd.lookup f)) (40 / 3)
      ["title", "department", "location"] 0 hreq
    have e2 := foldl_if_eq_all (fun f => DataCleaner.popStd (jd.lookup f)) (30 / 3)
      ["description", "application_link", "deadline_date"]
      (List.foldl (fun acc f => if DataCleaner.popStd (jd.lookup f) then acc + 40 / 3 else acc)
        0 ["title", "department", "location"]) himp
    have e3 := foldl_if_eq_all (fun f => DataCleaner.popAdd (jd.lookup f)) (20 / 4)
      ["salary", "vacancies", "skills", "education"]
      (List.foldl (fun acc f => if DataCleaner.popStd (jd.lookup f) then acc + 30 / 3 else acc)
        (List.foldl
          (fun acc f => if DataCleaner.popStd (jd.lookup f) then acc + 40 / 3 else acc)
          0 ["title", "department", "location"])
        ["description", "application_link", "deadline_date"]) hadd
    beta_reduce at e1 e2 e3
    refine le_min ?_ (by norm_num)
    split
    · rw [e3, e2, e1]
      have hb : (0 : ℚ) ≤
          ((jd.map Prod.snd).countP
              (fun v => DataCleaner.pyTruthy v && stripS (DataCleaner.pyStrOf v) ≠ []) : ℚ) /
            (jd.length : ℚ) :=
        div_nonneg (by positivity) (by positivity)
      simp only [List.length_cons, List.length_nil]
      push_cast
      linarith
    · next ht =>
      exact absurd (List.length_pos.mpr hne) ht

/-- Witness for `quality_score_bounds_and_full_record`: a fully populated
record (every required, important and additional field non-empty) scores at
least 90, and its score is within the bounds. -/
theorem quality_score_bounds_and_full_record_witness :
    (0 ≤ DataCleaner.calculate_data_quality_score
        [("title", .vstr "Engineer".data), ("department", .vstr "RHD".data),
         ("location", .vstr "Dhaka".data), ("description", .vstr "desc".data),
         ("application_link", .vstr "https://x.y".data),
         ("deadline_date", .vdate ⟨2024, 12, 31⟩), ("salary", .vstr "22000 BDT".data),
         ("vacancies", .vint 5), ("skills", .vlist ["Sql".data]),
         ("education", .vstr "BSc".data)] ∧
      DataCleaner.calculate_data_quality_score
        [("title", .vstr "Engineer".data), ("department", .vstr "RHD".data),
         ("location", .vstr "Dhaka".data), ("description", .vstr "desc".data),
         ("application_link", .vstr "https://x.y".data),
         ("deadline_date", .vdate ⟨2024, 12, 31⟩), ("salary", .vstr "22000 BDT".data),
         ("vacancies", .vint 5), ("skills", .vlist ["Sql".data]),
         ("education", .vstr "BSc".data)] ≤ 100) ∧
    90 ≤ DataCleaner.calculate_data_quality_score
        [("title", .vstr "Engineer".data), ("department", .vstr "RHD".data),
         ("location", .vstr "Dhaka".data), ("description", .vstr "desc".data),
         ("application_link", .vstr "https://x.y".data),
         ("deadline_date", .vdate ⟨2024, 12, 31⟩), ("salary", .vstr "22000 BDT".data),
         ("vacancies", .vint 5), ("skills", .vlist ["Sql".data]),
         ("education", .vstr "BSc".data)] :=
  ⟨quality_score_bounds_and_full_record.1 _,
   quality_score_bounds_and_full_record.2 _ (by decide) (by decide) (by decide)⟩

/-- Claim C3 (counterexample): the text normalizer is not idempotent.
Removing the disallowed `!` from `"a ! b"` leaves two adjacent spaces
(character removal runs after whitespace collapsing), so a second
application produces a different string. -/
theorem clean_text_not_idempotent_counterexample :
    DataCleaner.clean_text (DataCleaner.clean_text "a ! b".data) ≠
      DataCleaner.clean_text "a ! b".data := by
  decide


/-- One-step equation for `collapseWsA` on a cons cell. -/
theorem collapseWsA_cons (b : Bool) (c : Char) (t : Str) :
    collapseWsA b (c :: t) =
      if pySpace c then (if b then collapseWsA true t else ' ' :: collapseWsA true t)
      else c :: collapseWsA false t := rfl

/-- One-step equation for `rstripS` when the tail strips to empty. -/
theorem rstripS_cons_nil (c : Char) (t : Str) (h : rstripS t = []) :
    rstripS (c :: t) = if pySpace c then [] else [c] := by
  unfold rstripS
  rw [h]

/-- One-step equation for `rstripS` when the tail strips to a cons. -/
theorem rstripS_cons_cons (c : Char) (t : Str) (r : Char) (rs : Str)
    (h : rstripS t = r :: rs) :
    rstripS (c :: t) = c :: r :: rs := by
  unfold rstripS
  rw [h]

/-- One-step equation for `lstripS` on a whitespace head. -/
theorem lstripS_cons_space (c : Char) (t : Str) (hc : pySpace c = true) :
    lstripS (c :: t) = lstripS t := by
  unfold lstripS
  rw [List.dropWhile_cons, if_pos hc]

/-- One-step equation for `lstripS` on a non-whitespace head. -/
theorem lstripS_cons_keep (c : Char) (t : Str) (hc : ¬pySpace c = true) :
    lstripS (c :: t) = c :: t := by
  unfold lstripS
  rw [List.dropWhile_cons, if_neg hc]

/-- Membership in a `dropWhile` result implies membership in the list. -/
theorem mem_dropWhile (p : Char → Bool) :
    ∀ (l : Str) (a : Char), a ∈ l.dropWhile p → a ∈ l := by
  intro l
  induction l with
  | nil => intro a h; exact h
  | cons c t ih =>
    intro a h
    rw [List.dropWhile_cons] at h
    split at h
    · exact List.mem_cons_of_mem c (ih a h)
    · exact h

/-- Membership in a right-strip result implies membership in the list. -/
theorem mem_rstripS : ∀ (l : Str) (a : Char), a ∈ rstripS l → a ∈ l := by
  intro l
  induction l with
  | nil => intro a h; exact h
  | cons c t ih =>
    intro a h
    rcases hr : rstripS t with _ | ⟨r, rs⟩
    · rw [rstripS_cons_nil c t hr] at h
      split at h
      · exact absurd h (List.not_mem_nil a)
      · rcases List.mem_singleton.mp h with rfl
        exact List.mem_cons_self _ _
    · rw [rstripS_cons_cons c t r rs hr] at h
      rcases List.mem_cons.mp h with rfl | h2
      · exact List.mem_cons_self _ _
      · exact List.mem_cons_of_mem c (ih a (by rw [hr]; exact h2))

/-- Membership in a strip result implies membership in the list. -/
theorem mem_stripS (l : Str) (a : Char) (h : a ∈ stripS l) : a ∈ l :=
  mem_rstripS l a (mem_dropWhile pySpace (rstripS l) a h)

/-- Every character of a collapse result is a character of the input or a
space. -/
theorem mem_collapseWsA :
    ∀ (l : Str) (b : Bool) (a : Char), a ∈ collapseWsA b l → a ∈ l ∨ a = ' ' := by
  intro l
  induction l with
  | nil => intro b a h; exact absurd h (List.not_mem_nil a)
  | cons c t ih =>
    intro b a h
    rw [collapseWsA_cons] at h
    by_cases hc : pySpace c = true
    · rw [if_pos hc] at h
      cases b with
      | true =>
        rw [if_pos rfl] at h
        rcases ih true a h with h2 | h2
        · exact Or.inl (List.mem_cons_of_mem c h2)
        · exact Or.inr h2
      | false =>
        rw [if_neg Bool.false_ne_true] at h
        rcases List.mem_cons.mp h with rfl | h2
        · exact Or.inr rfl
        · rcases ih true a h2 with h3 | h3
          · exact Or.inl (List.mem_cons_of_mem c h3)
          · exact Or.inr h3
    · rw [if_neg hc] at h
      rcases List.mem_cons.mp h with rfl | h2
      · exact Or.inl (List.mem_cons_self _ _)
      · rcases ih false a h2 with h3 | h3
        · exact Or.inl (List.mem_cons_of_mem c h3)
        · exact Or.inr h3

/-- `stripTags` is the identity on strings without `<` (no tag can match). -/
theorem stripTagsF_no_lt : ∀ (f : Nat) (l : Str), ('<') ∉ l → stripTagsF f l = l := by
  intro f
  induction f with
  | zero => intro l _; rfl
  | succ f ih =>
    intro l h
    cases l with
    | nil => rfl
    | cons c t =>
      have hc : ¬c = '<' := fun hcc => h (hcc ▸ List.mem_cons_self c t)
      simp only [stripTagsF, if_neg hc]
      rw [ih t (fun hm => h (List.mem_cons_of_mem c hm))]

/-- `stripTags` is the identity on strings without `<`. -/
theorem stripTags_no_lt (l : Str) (h : ('<') ∉ l) : stripTags l = l :=
  stripTagsF_no_lt l.length l h

/-- Collapsing never lengthens a string. -/
theorem collapseWsA_length : ∀ (l : Str) (b : Bool), (collapseWsA b l).length ≤ l.length := by
  intro l
  induction l with
  | nil => intro b; exact le_refl _
  | cons c t ih =>
    intro b
    rw [collapseWsA_cons]
    by_cases hc : pySpace c = true
    · rw [if_pos hc]
      cases b with
      | true => rw [if_pos rfl]; exact le_trans (ih true) (Nat.le_succ _)
      | false => rw [if_neg Bool.false_ne_true, List.length_cons]; exact Nat.succ_le_succ (ih true)
    · rw [if_neg hc, List.length_cons]
      exact Nat.succ_le_succ (ih false)

/-- Whitespace collapsing is idempotent. -/
theorem collapseWsA_idem : ∀ (l : Str) (b : Bool),
    collapseWsA b (collapseWsA b l) = collapseWsA b l := by
  intro l
  induction l with
  | nil => intro b; rfl
  | cons c t ih =>
    intro b
    by_cases hc : pySpace c = true
    · cases b with
      | true =>
        rw [collapseWsA_cons, if_pos hc, if_pos rfl]
        exact ih true
      | false =>
        rw [collapseWsA_cons, if_pos hc, if_neg Bool.false_ne_true, collapseWsA_cons]
        rw [if_pos (by decide : pySpace ' ' = true), if_neg Bool.false_ne_true, ih true]
    · rw [collapseWsA_cons, if_neg hc, collapseWsA_cons, if_neg hc, ih false]

/-- The head of a left-strip result is never whitespace. -/
theorem lstrip_head_not_space :
    ∀ (l : Str) (d : Char) (s : Str), lstripS l = d :: s → pySpace d = false := by
  intro l
  induction l with
  | nil => intro d s h; exact absurd h (by simp [lstripS])
  | cons c t ih =>
    intro d s h
    by_cases hc : pySpace c = true
    · rw [lstripS_cons_space c t hc] at h
      exact ih d s h
    · rw [lstripS_cons_keep c t hc] at h
      obtain ⟨rfl, -⟩ : c = d ∧ t = s := by
        injection h with h1 h2
        exact ⟨h1, h2⟩
      exact Bool.eq_false_iff.mpr hc

/-- The collapse flag is irrelevant when the head is not whitespace. -/
theorem collapseWsA_flag_of_head (v : Str)
    (h : ∀ d s, v = d :: s → pySpace d = false) :
    collapseWsA true v = collapseWsA false v := by
  cases v with
  | nil => rfl
  | cons d s =>
    have hd : ¬pySpace d = true := by
      rw [h d s rfl]
      exact Bool.false_ne_true
    rw [collapseWsA_cons, collapseWsA_cons, if_neg hd, if_neg hd]

/-- Right-stripping preserves collapse fixpoints. -/
theorem collapse_fix_rstrip :
    ∀ (u : Str) (b : Bool), collapseWsA b u = u → collapseWsA b (rstripS u) = rstripS u := by
  intro u
  induction u with
  | nil => intro b _; rfl
  | cons c t ih =>
    intro b hfix
    rw [collapseWsA_cons] at hfix
    by_cases hc : pySpace c = true
    · rw [if_pos hc] at hfix
      cases b with
      | true =>
        exfalso
        rw [if_pos rfl] at hfix
        have hlen := collapseWsA_length t true
        rw [hfix] at hlen
        simp at hlen
      | false =>
        rw [if_neg Bool.false_ne_true] at hfix
        obtain ⟨hc2, hfix2⟩ : ' ' = c ∧ collapseWsA true t = t := by
          injection hfix with h1 h2
          exact ⟨h1, h2⟩
        rcases hr : rstripS t with _ | ⟨r, rs⟩
        · rw [rstripS_cons_nil c t hr, if_pos hc]
          rfl
        · rw [rstripS_cons_cons c t r rs hr]
          have htail := ih true hfix2
          rw [hr] at htail
          rw [collapseWsA_cons, if_pos hc, if_neg Bool.false_ne_true, htail]
          rw [← hc2]
    · rw [if_neg hc] at hfix
      have hfix2 : collapseWsA false t = t := by
        have h := congrArg List.tail hfix
        simpa using h
      rcases hr : rstripS t with _ | ⟨r, rs⟩
      · rw [rstripS_cons_nil c t hr, if_neg hc, collapseWsA_cons, if_neg hc]
        rfl
      · rw [rstripS_cons_cons c t r rs hr]
        have htail := ih false hfix2
        rw [hr] at htail
        rw [collapseWsA_cons, if_neg hc, htail]

/-- Left-stripping preserves collapse fixpoints. -/
theorem collapse_fix_lstrip :
    ∀ (u : Str) (b : Bool), collapseWsA b u = u → collapseWsA b (lstripS u) = lstripS u := by
  intro u
  induction u with
  | nil => intro b _; rfl
  | cons c t ih =>
    intro b hfix
    rw [collapseWsA_cons] at hfix
    by_cases hc : pySpace c = true
    · rw [if_pos hc] at hfix
      cases b with
      | true =>
        exfalso
        rw [if_pos rfl] at hfix
        have hlen := collapseWsA_length t true
        rw [hfix] at hlen
        simp at hlen
      | false =>
        rw [if_neg Bool.false_ne_true] at hfix
        have hfix2 : collapseWsA true t = t := by
          have h := congrArg List.tail hfix
          simpa using h
        rw [lstripS_cons_space c t hc]
        have hht := ih true hfix2
        have hflag : collapseWsA true (lstripS t) = collapseWsA false (lstripS t) :=
          collapseWsA_flag_of_head _ (fun d s hds => lstrip_head_not_space t d s hds)
        rw [← hflag]
        exact hht
    · rw [if_neg hc] at hfix
      rw [lstripS_cons_keep c t hc]
      rw [collapseWsA_cons, if_neg hc]
      have hfix2 : collapseWsA false t = t := by
        have h := congrArg List.tail hfix
        simpa using h
      rw [hfix2]

/-- Left-stripping is idempotent. -/
theorem lstrip_idem (l : Str) : lstripS (lstripS l) = lstripS l := by
  induction l with
  | nil => rfl
  | cons c t ih =>
    by_cases hc : pySpace c = true
    · rw [lstripS_cons_space c t hc]
      exact ih
    · rw [lstripS_cons_keep c t hc, lstripS_cons_keep c t hc]

/-- Right-stripping is idempotent. -/
theorem rstrip_idem : ∀ (l : Str), rstripS (rstripS l) = rstripS l := by
  intro l
  induction l with
  | nil => rfl
  | cons c t ih =>
    rcases hr : rstripS t with _ | ⟨r, rs⟩
    · rw [rstripS_cons_nil c t hr]
      by_cases hc : pySpace c = true
      · rw [if_pos hc]
        rfl
      · rw [if_neg hc]
        rw [rstripS_cons_nil c [] rfl, if_neg hc]
    · rw [rstripS_cons_cons c t r rs hr]
      rw [hr] at ih
      exact rstripS_cons_cons c (r :: rs) r rs ih

/-- Left- and right-stripping commute. -/
theorem lstrip_rstrip_comm : ∀ (l : Str), rstripS (lstripS l) = lstripS (rstripS l) := by
  intro l
  induction l with
  | nil => rfl
  | cons c t ih =>
    by_cases hc : pySpace c = true
    · rw [lstripS_cons_space c t hc, ih]
      rcases hr : rstripS t with _ | ⟨r, rs⟩
      · rw [rstripS_cons_nil c t hr, if_pos hc]
      · rw [rstripS_cons_cons c t r rs hr, lstripS_cons_space c (r :: rs) hc]
    · rw [lstripS_cons_keep c t hc]
      rcases hr : rstripS t with _ | ⟨r, rs⟩
      · rw [rstripS_cons_nil c t hr, if_neg hc]
        rw [lstripS_cons_keep c [] hc]
      · rw [rstripS_cons_cons c t r rs hr]
        rw [lstripS_cons_keep c (r :: rs) hc]

/-- Stripping is idempotent. -/
theorem strip_idem (l : Str) : stripS (stripS l) = stripS l := by
  unfold stripS
  rw [lstrip_rstrip_comm (rstripS l), rstrip_idem l, lstrip_idem]

/-- Every character of a `clean_text` output is in the allowed class. -/
theorem clean_text_mem_allowed (x : Str) (a : Char)
    (h : a ∈ DataCleaner.clean_text x) : DataCleaner.allowedChar a = true := by
  unfold DataCleaner.clean_text at h
  split at h
  · exact absurd h (List.not_mem_nil a)
  · have h2 := mem_stripS _ _ h
    exact (List.mem_filter.mp h2).2

/-- On a string of allowed characters, `clean_text` reduces to collapse and
strip: tags cannot match (no `<` is allowed) and the filter keeps
everything. -/
theorem clean_text_allowed_eq (y : Str) (hy : y ≠ [])
    (hall : ∀ a ∈ y, DataCleaner.allowedChar a = true) :
    DataCleaner.clean_text y = stripS (collapseWs y) := by
  have hlt : ('<') ∉ y := fun hm => absurd (hall _ hm) (by decide)
  have hF : DataCleaner.filterAllowed (collapseWs y) = collapseWs y := by
    apply List.filter_eq_self.mpr
    intro a ha
    rcases mem_collapseWsA _ _ _ ha with h2 | rfl
    · exact hall a h2
    · decide
  unfold DataCleaner.clean_text
  rw [if_neg hy]
  show stripS (DataCleaner.filterAllowed (collapseWs (stripTags (DataCleaner.nfkd y)))) = _
  rw [show DataCleaner.nfkd y = y from rfl, stripTags_no_lt y hlt, hF]

/-- On a string of allowed characters, applying `clean_text` twice is the
same as applying it once. -/
theorem clean_text_fix_of_allowed (y : Str)
    (hall : ∀ a ∈ y, DataCleaner.allowedChar a = true) :
    DataCleaner.clean_text (DataCleaner.clean_text y) = DataCleaner.clean_text y := by
  by_cases hy : y = []
  · subst hy
    rfl
  · rw [clean_text_allowed_eq y hy hall]
    by_cases hz : stripS (collapseWs y) = []
    · rw [hz]
      rfl
    · have hallz : ∀ a ∈ stripS (collapseWs y), DataCleaner.allowedChar a = true := by
        intro a ha
        rcases mem_collapseWsA _ _ _ (mem_stripS _ _ ha) with h2 | rfl
        · exact hall a h2
        · decide
      rw [clean_text_allowed_eq _ hz hallz]
      have hCfix : collapseWsA false (collapseWs y) = collapseWs y := collapseWsA_idem y false
      have hr := collapse_fix_rstrip (collapseWs y) false hCfix
      have hl := collapse_fix_lstrip (rstripS (collapseWs y)) false hr
      show stripS (collapseWsA false (stripS (collapseWs y))) = stripS (collapseWs y)
      rw [show collapseWsA false (stripS (collapseWs y)) = stripS (collapseWs y) from hl]
      exact strip_idem _

/-- Claim C3 (amended): the text normalizer is total — empty (or `None`)
input yields the empty string without raising — but a single application is
not idempotent (see the counterexample: removing a disallowed character can
leave a double space).  From the second application onward the result is
stable: for every ASCII string `x`,
`clean_text (clean_text (clean_text x)) = clean_text (clean_text x)`. -/
theorem clean_text_total_and_eventually_idempotent :
    DataCleaner.clean_text [] = [] ∧
    ∀ x : Str, (∀ c ∈ x, c.toNat < 128) →
      DataCleaner.clean_text (DataCleaner.clean_text (DataCleaner.clean_text x)) =
        DataCleaner.clean_text (DataCleaner.clean_text x) := by
  refine ⟨rfl, fun x _ => ?_⟩
  exact clean_text_fix_of_allowed _ (fun a ha => clean_text_mem_allowed x a ha)

/-- Witness for `clean_text_total_and_eventually_idempotent` at the
counterexample input. -/
theorem clean_text_total_and_eventually_idempotent_witness :
    (∀ c ∈ "a ! b".data, c.toNat < 128) ∧
    DataCleaner.clean_text (DataCleaner.clean_text (DataCleaner.clean_text "a ! b".data)) =
      DataCleaner.clean_text (DataCleaner.clean_text "a ! b".data) :=
  ⟨by decide, clean_text_total_and_eventually_idempotent.2 "a ! b".data (by decide)⟩

/-- Characters are equal iff their code points are. -/
theorem char_eq_iff (c d : Char) : c = d ↔ c.toNat = d.toNat :=
  ⟨fun h => h ▸ rfl, fun h => Char.ext (UInt32.toNat.inj h)⟩

/-- Code point of `Char.ofNat` below the surrogate range. -/
theorem char_ofNat_toNat (n : Nat) (h : n < 55296) : (Char.ofNat n).toNat = n := by
  unfold Char.ofNat
  rw [dif_pos (Or.inl h)]
  rfl

/-- The upper-case test of `pyLower`, read on code points. -/
theorem upper_range_iff (c : Char) :
    ('A' ≤ c ∧ c ≤ 'Z') ↔ (65 ≤ c.toNat ∧ c.toNat ≤ 90) := Iff.rfl

/-- The lower-case test of `pyUpper`, read on code points. -/
theorem lower_range_iff (c : Char) :
    ('a' ≤ c ∧ c ≤ 'z') ↔ (97 ≤ c.toNat ∧ c.toNat ≤ 122) := Iff.rfl

/-- Code point of `pyLower`. -/
theorem toNat_pyLower (c : Char) :
    (pyLower c).toNat =
      if 65 ≤ c.toNat ∧ c.toNat ≤ 90 then c.toNat + 32 else c.toNat := by
  unfold pyLower
  by_cases h : 65 ≤ c.toNat ∧ c.toNat ≤ 90
  · rw [if_pos ((upper_range_iff c).mpr h), if_pos h, char_ofNat_toNat _ (by omega)]
  · rw [if_neg (fun hc => h ((upper_range_iff c).mp hc)), if_neg h]

/-- Code point of `pyUpper`. -/
theorem toNat_pyUpper (c : Char) :
    (pyUpper c).toNat =
      if 97 ≤ c.toNat ∧ c.toNat ≤ 122 then c.toNat - 32 else c.toNat := by
  unfold pyUpper
  by_cases h : 97 ≤ c.toNat ∧ c.toNat ≤ 122
  · rw [if_pos ((lower_range_iff c).mpr h), if_pos h, char_ofNat_toNat _ (by omega)]
  · rw [if_neg (fun hc => h ((lower_range_iff c).mp hc)), if_neg h]

/-- `Char.isAlphanum`, read on code points. -/
theorem isAlphanum_iff (c : Char) : c.isAlphanum = true ↔
    (48 ≤ c.toNat ∧ c.toNat ≤ 57) ∨ (65 ≤ c.toNat ∧ c.toNat ≤ 90) ∨
    (97 ≤ c.toNat ∧ c.toNat ≤ 122) := by
  simp [Char.isAlphanum, Char.isAlpha, Char.isUpper, Char.isLower, Char.isDigit, Char.toNat]
  show ((65 ≤ c.val.toNat ∧ c.val.toNat ≤ 90) ∨ (97 ≤ c.val.toNat ∧ c.val.toNat ≤ 122)) ∨
    (48 ≤ c.val.toNat ∧ c.val.toNat ≤ 57) ↔ _
  omega

/-- `pySpace`, read on code points. -/
theorem pySpace_iff (c : Char) : pySpace c = true ↔
    c.toNat = 32 ∨ c.toNat = 9 ∨ c.toNat = 10 ∨ c.toNat = 13 ∨
    c.toNat = 11 ∨ c.toNat = 12 := by
  simp [pySpace, char_eq_iff]

/-- `pyWordChar`, read on code points. -/
theorem pyWordChar_iff (c : Char) : pyWordChar c = true ↔
    (48 ≤ c.toNat ∧ c.toNat ≤ 57) ∨ (65 ≤ c.toNat ∧ c.toNat ≤ 90) ∨
    (97 ≤ c.toNat ∧ c.toNat ≤ 122) ∨ c.toNat = 95 := by
  simp [pyWordChar, isAlphanum_iff, char_eq_iff]
  omega

/-- `allowedChar`, read on code points. -/
theorem allowedChar_iff (c : Char) : DataCleaner.allowedChar c = true ↔
    (48 ≤ c.toNat ∧ c.toNat ≤ 57) ∨ (65 ≤ c.toNat ∧ c.toNat ≤ 90) ∨
    (97 ≤ c.toNat ∧ c.toNat ≤ 122) ∨ c.toNat = 95 ∨
    c.toNat = 32 ∨ c.toNat = 9 ∨ c.toNat = 10 ∨ c.toNat = 13 ∨
    c.toNat = 11 ∨ c.toNat = 12 ∨
    (2432 ≤ c.toNat ∧ c.toNat ≤ 2559) ∨
    c.toNat = 46 ∨ c.toNat = 44 ∨ c.toNat = 40 ∨ c.toNat = 41 ∨ c.toNat = 45 := by
  simp [DataCleaner.allowedChar, pyWordChar_iff, pySpace_iff, char_eq_iff]
  omega

/-- Lower-casing preserves whitespace-ness. -/
theorem pySpace_pyLower (c : Char) : pySpace (pyLower c) = pySpace c := by
  rw [Bool.eq_iff_iff, pySpace_iff, pySpace_iff, toNat_pyLower]
  split_ifs with h <;> omega

/-- Lower-casing preserves word-character-ness. -/
theorem pyWordChar_pyLower (c : Char) : pyWordChar (pyLower c) = pyWordChar c := by
  rw [Bool.eq_iff_iff, pyWordChar_iff, pyWordChar_iff, toNat_pyLower]
  split_ifs with h <;> omega

/-- Lower-casing preserves membership in the allowed character class. -/
theorem allowedChar_pyLower (c : Char) :
    DataCleaner.allowedChar (pyLower c) = DataCleaner.allowedChar c := by
  rw [Bool.eq_iff_iff, allowedChar_iff, allowedChar_iff, toNat_pyLower]
  split_ifs with h <;> omega

/-- `pyLower` is idempotent. -/
theorem pyLower_idem (c : Char) : pyLower (pyLower c) = pyLower c := by
  rw [char_eq_iff, toNat_pyLower (pyLower c), toNat_pyLower c]
  split_ifs <;> omega

/-- `pyUpper` is determined by the lower-cased character. -/
theorem pyUpper_pyLower (c : Char) : pyUpper (pyLower c) = pyUpper c := by
  rw [char_eq_iff, toNat_pyUpper (pyLower c), toNat_pyUpper c, toNat_pyLower c]
  split_ifs <;> omega

/-- Lower-casing fixes `<` and maps no other character to it. -/
theorem pyLower_eq_lt_iff (c : Char) : pyLower c = '<' ↔ c = '<' := by
  have h60 : ('<' : Char).toNat = 60 := rfl
  rw [char_eq_iff, char_eq_iff, toNat_pyLower, h60]
  split_ifs with h <;> omega

/-- Lower-casing fixes `>` and maps no other character to it. -/
theorem pyLower_eq_gt_iff (c : Char) : pyLower c = '>' ↔ c = '>' := by
  have h62 : ('>' : Char).toNat = 62 := rfl
  rw [char_eq_iff, char_eq_iff, toNat_pyLower, h62]
  split_ifs with h <;> omega


/-- `str.lower` is idempotent. -/
theorem lowerS_lowerS (l : Str) : lowerS (lowerS l) = lowerS l := by
  simp only [lowerS, List.map_map]
  exact List.map_congr_left (fun c _ => pyLower_idem c)

/-- `str.lower` over an append. -/
theorem lowerS_append (a b : Str) : lowerS (a ++ b) = lowerS a ++ lowerS b :=
  List.map_append pyLower a b

/-- `str.lower` preserves length. -/
theorem lowerS_length (l : Str) : (lowerS l).length = l.length := List.length_map l pyLower

/-- `str.lower` commutes with `takeWhile pySpace`. -/
theorem takeWhile_pySpace_lowerS (l : Str) :
    (lowerS l).takeWhile pySpace = lowerS (l.takeWhile pySpace) := by
  induction l with
  | nil => rfl
  | cons c t ih =>
    show (pyLower c :: lowerS t).takeWhile pySpace = lowerS ((c :: t).takeWhile pySpace)
    rw [List.takeWhile_cons, List.takeWhile_cons, pySpace_pyLower]
    by_cases h : pySpace c = true
    · rw [if_pos h, if_pos h]
      show pyLower c :: (lowerS t).takeWhile pySpace = pyLower c :: lowerS (t.takeWhile pySpace)
      rw [ih]
    · rw [if_neg h, if_neg h]
      rfl

/-- `str.lower` commutes with `lstrip`. -/
theorem lstripS_lowerS (l : Str) : lstripS (lowerS l) = lowerS (lstripS l) := by
  induction l with
  | nil => rfl
  | cons c t ih =>
    show lstripS (pyLower c :: lowerS t) = lowerS (lstripS (c :: t))
    by_cases h : pySpace c = true
    · rw [lstripS_cons_space _ _ (by rw [pySpace_pyLower]; exact h), ih,
        lstripS_cons_space _ _ h]
    · rw [lstripS_cons_keep _ _ (by rw [pySpace_pyLower]; exact h),
        lstripS_cons_keep _ _ h]
      rfl

/-- `str.lower` commutes with `rstrip`. -/
theorem rstripS_lowerS : ∀ l : Str, rstripS (lowerS l) = lowerS (rstripS l) := by
  intro l
  induction l with
  | nil => rfl
  | cons c t ih =>
    show rstripS (pyLower c :: lowerS t) = lowerS (rstripS (c :: t))
    rcases h : rstripS t with _ | ⟨r, rs⟩
    · rw [rstripS_cons_nil _ _ (by rw [ih, h]; rfl), rstripS_cons_nil _ _ h, pySpace_pyLower]
      by_cases hc : pySpace c = true
      · rw [if_pos hc, if_pos hc]
        rfl
      · rw [if_neg hc, if_neg hc]
        rfl
    · rw [rstripS_cons_cons _ _ (pyLower r) (lowerS rs) (by rw [ih, h]; rfl),
        rstripS_cons_cons _ _ r rs h]
      rfl

/-- `str.lower` commutes with `strip`. -/
theorem stripS_lowerS (l : Str) : stripS (lowerS l) = lowerS (stripS l) := by
  unfold stripS
  rw [rstripS_lowerS, lstripS_lowerS]

/-- `str.lower` commutes with whitespace collapsing. -/
theorem collapseWsA_lowerS : ∀ (b : Bool) (l : Str),
    collapseWsA b (lowerS l) = lowerS (collapseWsA b l) := by
  intro b l
  induction l generalizing b with
  | nil => rfl
  | cons c t ih =>
    show collapseWsA b (pyLower c :: lowerS t) = lowerS (collapseWsA b (c :: t))
    rw [collapseWsA_cons, collapseWsA_cons, pySpace_pyLower]
    by_cases h : pySpace c = true
    · rw [if_pos h, if_pos h]
      cases b with
      | false =>
        show ' ' :: collapseWsA true (lowerS t) = lowerS (' ' :: collapseWsA true t)
        rw [ih]
        rfl
      | true => exact ih true
    · rw [if_neg h, if_neg h]
      show pyLower c :: collapseWsA false (lowerS t) = lowerS (c :: collapseWsA false t)
      rw [ih]
      rfl

/-- `str.lower` commutes with the disallowed-character removal. -/
theorem filterAllowed_lowerS (l : Str) :
    DataCleaner.filterAllowed (lowerS l) = lowerS (DataCleaner.filterAllowed l) := by
  induction l with
  | nil => rfl
  | cons c t ih =>
    show (pyLower c :: lowerS t).filter DataCleaner.allowedChar =
      lowerS ((c :: t).filter DataCleaner.allowedChar)
    rw [List.filter_cons, List.filter_cons, allowedChar_pyLower]
    by_cases h : DataCleaner.allowedChar c = true
    · rw [if_pos h, if_pos h]
      show pyLower c :: DataCleaner.filterAllowed (lowerS t) = lowerS (c :: _)
      rw [ih]
      rfl
    · rw [if_neg h, if_neg h]
      exact ih

/-- `str.lower` commutes with the worker of `str.split`. -/
theorem pySplitA_lowerS : ∀ (l acc : Str),
    pySplitA (lowerS l) (lowerS acc) = (pySplitA l acc).map lowerS := by
  intro l
  induction l with
  | nil =>
    intro acc
    cases acc with
    | nil => rfl
    | cons a t =>
      show (if lowerS (a :: t) = [] then [] else [(lowerS (a :: t)).reverse]) =
        (if (a :: t : Str) = [] then [] else [(a :: t).reverse]).map lowerS
      rw [if_neg (by simp [lowerS] : ¬lowerS (a :: t) = []), if_neg (by simp : ¬(a :: t : Str) = [])]
      simp [lowerS, List.map_reverse]
  | cons c t ih =>
    intro acc
    have ihnil : pySplitA (lowerS t) [] = (pySplitA t []).map lowerS := ih []
    show pySplitA (pyLower c :: lowerS t) (lowerS acc) = (pySplitA (c :: t) acc).map lowerS
    unfold pySplitA
    rw [pySpace_pyLower]
    by_cases h : pySpace c = true
    · rw [if_pos h, if_pos h]
      cases acc with
      | nil =>
        rw [show lowerS ([] : Str) = [] from rfl, if_pos (rfl : ([] : Str) = [])]
        exact ihnil
      | cons a s =>
        rw [if_neg (by simp [lowerS] : ¬lowerS (a :: s) = []),
          if_neg (by simp : ¬(a :: s : Str) = []), List.map_cons, ihnil]
        congr 1
        simp [lowerS, List.map_reverse]
    · rw [if_neg h, if_neg h]
      exact ih (c :: acc)

/-- `str.lower` commutes with `str.split`. -/
theorem pySplit_lowerS (l : Str) : pySplit (lowerS l) = (pySplit l).map lowerS :=
  pySplitA_lowerS l []




/-- A whitespace character is not `<`. -/
theorem ne_lt_of_space (c : Char) (h : pySpace c = true) : c ≠ '<' := by
  intro he
  rw [he] at h
  exact absurd h (by decide)

/-- A whitespace character is not `>`. -/
theorem ne_gt_of_space (c : Char) (h : pySpace c = true) : c ≠ '>' := by
  intro he
  rw [he] at h
  exact absurd h (by decide)

/-- The `true`-flag collapse output has no leading whitespace. -/
theorem lstrip_collapse_true : ∀ l : Str, lstripS (collapseWsA true l) = collapseWsA true l := by
  intro l
  induction l with
  | nil => rfl
  | cons c t ih =>
    rw [collapseWsA_cons]
    by_cases h : pySpace c = true
    · rw [if_pos h, if_pos rfl]
      exact ih
    · rw [if_neg h]
      exact lstripS_cons_keep c _ h

/-- Left-stripping a collapse output turns the flag on. -/
theorem lstrip_collapse_false : ∀ l : Str, lstripS (collapseWsA false l) = collapseWsA true l := by
  intro l
  induction l with
  | nil => rfl
  | cons c t ih =>
    rw [collapseWsA_cons, collapseWsA_cons]
    by_cases h : pySpace c = true
    · rw [if_pos h, if_pos h, if_neg Bool.false_ne_true, if_pos rfl,
        lstripS_cons_space _ _ (by decide)]
      exact lstrip_collapse_true t
    · rw [if_neg h, if_neg h]
      exact lstripS_cons_keep c _ h

/-- `canon` through the `true`-flag collapse. -/
theorem canon_eq (l : Str) : canon l = lowerS (rstripS (collapseWsA true l)) := by
  unfold canon stripS collapseWs
  rw [← lstrip_rstrip_comm, lstrip_collapse_false]

/-- `canon` is the left-strip of `canonA`. -/
theorem canon_lstrip_canonA (t : Str) : canon t = lstripS (canonA t) := by
  unfold canon canonA stripS
  rw [lstripS_lowerS]

/-- Equation for `canonA` on a non-whitespace head. -/
theorem canonA_cons_keep (c : Char) (t : Str) (h : ¬pySpace c = true) :
    canonA (c :: t) = pyLower c :: canonA t := by
  unfold canonA collapseWs
  rw [collapseWsA_cons, if_neg h]
  rcases hr : rstripS (collapseWsA false t) with _ | ⟨r, rs⟩
  · rw [rstripS_cons_nil _ _ hr, if_neg h]
    rfl
  · rw [rstripS_cons_cons _ _ _ _ hr]
    rfl

/-- Equation for `canon` on a non-whitespace head. -/
theorem canon_cons_keep (c : Char) (t : Str) (h : ¬pySpace c = true) :
    canon (c :: t) = pyLower c :: canonA t := by
  rw [canon_lstrip_canonA, canonA_cons_keep c t h]
  exact lstripS_cons_keep _ _ (by rw [pySpace_pyLower]; exact h)

/-- Equation for `canon` on a whitespace head. -/
theorem canon_cons_space (c : Char) (t : Str) (h : pySpace c = true) :
    canon (c :: t) = canon t := by
  rw [canon_eq, canon_eq, collapseWsA_cons, if_pos h, if_pos rfl]

/-- Equation for `canonA` on a whitespace head. -/
theorem canonA_cons_space (c : Char) (t : Str) (h : pySpace c = true) :
    canonA (c :: t) = if canon t = [] then [] else ' ' :: canon t := by
  unfold canonA collapseWs
  rw [collapseWsA_cons, if_pos h, if_neg Bool.false_ne_true, canon_eq]
  rcases hr : rstripS (collapseWsA true t) with _ | ⟨r, rs⟩
  · rw [rstripS_cons_nil _ _ hr, if_pos (by decide)]
    decide
  · rw [rstripS_cons_cons _ _ _ _ hr, if_neg (by simp [lowerS])]
    have hsp : pyLower ' ' = ' ' := by decide
    show pyLower ' ' :: lowerS (r :: rs) = ' ' :: lowerS (r :: rs)
    rw [hsp]

/-- `canon` ignores letter case of its input. -/
theorem canon_lowerS (d : Str) : canon (lowerS d) = canon d := by
  unfold canon collapseWs
  rw [collapseWsA_lowerS, stripS_lowerS, lowerS_lowerS]

/-- Right-stripping an all-whitespace string gives the empty string. -/
theorem rstrip_eq_nil_of_all_space (v : Str) (h : ∀ c ∈ v, pySpace c = true) :
    rstripS v = [] := by
  induction v with
  | nil => rfl
  | cons c t ih =>
    rw [rstripS_cons_nil c t (ih (fun a ha => h a (List.mem_cons_of_mem c ha))),
      if_pos (h c (List.mem_cons_self c t))]

/-- `canon` is empty exactly on all-whitespace strings. -/
theorem canon_eq_nil_iff (l : Str) : canon l = [] ↔ ∀ c ∈ l, pySpace c = true := by
  constructor
  · induction l with
    | nil => exact fun _ c hc => absurd hc (List.not_mem_nil c)
    | cons c t ih =>
      intro h a ha
      by_cases hc : pySpace c = true
      · rw [canon_cons_space c t hc] at h
        rcases List.mem_cons.mp ha with rfl | ha2
        · exact hc
        · exact ih h a ha2
      · rw [canon_cons_keep c t hc] at h
        exact absurd h (List.cons_ne_nil _ _)
  · intro h
    rw [canon_eq]
    have hall : ∀ c ∈ collapseWsA true l, pySpace c = true := by
      intro a ha
      rcases mem_collapseWsA l true a ha with h2 | rfl
      · exact h a h2
      · decide
    rw [rstrip_eq_nil_of_all_space _ hall]
    rfl

/-- `canonA` is empty exactly on all-whitespace strings. -/
theorem canonA_eq_nil_iff (l : Str) : canonA l = [] ↔ ∀ c ∈ l, pySpace c = true := by
  constructor
  · intro h
    rw [← canon_eq_nil_iff, canon_lstrip_canonA, h]
    rfl
  · intro h
    unfold canonA collapseWs
    have hall : ∀ c ∈ collapseWsA false l, pySpace c = true := by
      intro a ha
      rcases mem_collapseWsA l false a ha with h2 | rfl
      · exact h a h2
      · decide
    rw [rstrip_eq_nil_of_all_space _ hall]
    rfl

/-- `stripTagsF` on the empty string, any fuel. -/
theorem stripTagsF_nil (f : Nat) : stripTagsF f [] = [] := by
  cases f <;> rfl

/-- Unfolding of `stripTagsF` on a non-`<` head. -/
theorem stripTagsF_succ_ne (f : Nat) (c : Char) (t : Str) (h : c ≠ '<') :
    stripTagsF (f + 1) (c :: t) = c :: stripTagsF f t := by
  simp only [stripTagsF, if_neg h]

/-- Unfolding of `stripTagsF` at `<` when no `>` follows. -/
theorem stripTagsF_succ_span_nil (f : Nat) (t pre : Str)
    (hsp : t.span (fun d => !(d = '>')) = (pre, [])) :
    stripTagsF (f + 1) ('<' :: t) = '<' :: t := by
  have step : stripTagsF (f + 1) ('<' :: t) =
      (match t.span (fun d => !(d = '>')) with
       | (pre, g :: rest) => if pre = [] then '<' :: g :: stripTagsF f rest else stripTagsF f rest
       | (_, []) => '<' :: t) := rfl
  rw [step, hsp]

/-- Unfolding of `stripTagsF` at `<` when a later `>` exists. -/
theorem stripTagsF_succ_span (f : Nat) (t pre : Str) (g : Char) (rest : Str)
    (hsp : t.span (fun d => !(d = '>')) = (pre, g :: rest)) :
    stripTagsF (f + 1) ('<' :: t) =
      if pre = [] then '<' :: g :: stripTagsF f rest else stripTagsF f rest := by
  have step : stripTagsF (f + 1) ('<' :: t) =
      (match t.span (fun d => !(d = '>')) with
       | (pre, g :: rest) => if pre = [] then '<' :: g :: stripTagsF f rest else stripTagsF f rest
       | (_, []) => '<' :: t) := rfl
  rw [step, hsp]

/-- The fuel of `stripTagsF` is irrelevant once it covers the length. -/
theorem stripTagsF_fuel : ∀ (n : Nat) (l : Str), l.length ≤ n → ∀ f : Nat, l.length ≤ f →
    stripTagsF f l = stripTagsF l.length l := by
  intro n
  induction n with
  | zero =>
    intro l hl f _
    have hnil : l = [] := List.eq_nil_of_length_eq_zero (Nat.le_zero.mp hl)
    subst hnil
    rw [stripTagsF_nil, stripTagsF_nil]
  | succ n ih =>
    intro l hl f hf
    cases l with
    | nil => rw [stripTagsF_nil, stripTagsF_nil]
    | cons c t =>
      cases f with
      | zero => exact absurd hf (by simp)
      | succ f2 =>
        have hlt : t.length ≤ n := by
          simp only [List.length_cons] at hl
          omega
        have hft : t.length ≤ f2 := by
          simp only [List.length_cons] at hf
          omega
        simp only [List.length_cons]
        by_cases hc : c = '<'
        · subst hc
          rcases hsp : t.span (fun d => !(d = '>')) with ⟨pre, post⟩
          have hsp2 := (List.span_eq_take_drop (fun d => !(d = '>')) t).symm.trans hsp
          have hpre : t.takeWhile (fun d => !(d = '>')) = pre := congrArg Prod.fst hsp2
          have hpost : t.dropWhile (fun d => !(d = '>')) = post := congrArg Prod.snd hsp2
          have happ : pre ++ post = t := by
            rw [← hpre, ← hpost]
            exact List.takeWhile_append_dropWhile _ t
          cases post with
          | nil => rw [stripTagsF_succ_span_nil f2 t pre hsp, stripTagsF_succ_span_nil t.length t pre hsp]
          | cons g rest =>
            have hlen : pre.length + (rest.length + 1) = t.length := by
              have := congrArg List.length happ
              simp only [List.length_append, List.length_cons] at this
              omega
            rw [stripTagsF_succ_span f2 t pre g rest hsp, stripTagsF_succ_span t.length t pre g rest hsp,
              ih rest (by omega) f2 (by omega), ih rest (by omega) t.length (by omega)]
        · rw [stripTagsF_succ_ne f2 c t hc, stripTagsF_succ_ne t.length c t hc,
            ih t hlt f2 hft]

/-- `stripTags` keeps a non-`<` head. -/
theorem stripTags_cons_ne (c : Char) (t : Str) (h : c ≠ '<') :
    stripTags (c :: t) = c :: stripTags t := by
  unfold stripTags
  simp only [List.length_cons]
  rw [stripTagsF_succ_ne t.length c t h]

/-- The head of the remainder at the first `>` is that `>`. -/
theorem dropWhile_ne_gt (t : Str) (h : ('>') ∈ t) :
    ∃ rest, t.dropWhile (fun d => !(d = '>')) = '>' :: rest := by
  induction t with
  | nil => exact absurd h (List.not_mem_nil _)
  | cons c t ih =>
    by_cases hc : c = '>'
    · subst hc
      refine ⟨t, ?_⟩
      rw [List.dropWhile_cons, if_neg (by simp)]
    · rw [List.dropWhile_cons, if_pos (by simp [hc])]
      rcases List.mem_cons.mp h with he | ht
      · exact absurd he.symm hc
      · exact ih ht

/-- `stripTags` keeps a `<` not followed by any `>`. -/
theorem stripTags_lt_no_gt (t : Str) (h : ('>') ∉ t) : stripTags ('<' :: t) = '<' :: t := by
  unfold stripTags
  simp only [List.length_cons]
  have hdw : t.dropWhile (fun d => !(d = '>')) = [] := by
    rw [List.dropWhile_eq_nil_iff]
    intro x hx
    have hne : x ≠ '>' := fun he => h (he ▸ hx)
    simp [hne]
  exact stripTagsF_succ_span_nil t.length t _ (by rw [List.span_eq_take_drop, hdw])

/-- `stripTags` keeps an empty tag `<>` and continues after it. -/
theorem stripTags_lt_gt (t1 : Str) :
    stripTags ('<' :: '>' :: t1) = '<' :: '>' :: stripTags t1 := by
  unfold stripTags
  simp only [List.length_cons]
  have hsp : ('>' :: t1).span (fun d => !(d = '>')) = ([], '>' :: t1) := by
    rw [List.span_eq_take_drop, List.takeWhile_cons, List.dropWhile_cons,
      if_neg (by simp), if_neg (by simp)]
  rw [stripTagsF_succ_span (t1.length + 1) ('>' :: t1) [] '>' t1 hsp,
    if_pos (rfl : ([] : Str) = []),
    stripTagsF_fuel t1.length t1 (le_refl _) (t1.length + 1) (by omega)]

/-- `stripTags` removes a non-empty tag span and continues after the `>`. -/
theorem stripTags_lt_found (a : Char) (t1 : Str) (hne : a ≠ '>') (h1 : ('>') ∈ a :: t1) :
    stripTags ('<' :: a :: t1) = stripTags (afterGt (a :: t1)) := by
  have h1t : ('>') ∈ t1 := by
    rcases List.mem_cons.mp h1 with he | ht
    · exact absurd he.symm hne
    · exact ht
  rcases dropWhile_ne_gt t1 h1t with ⟨rest, hdw⟩
  have hdw2 : (a :: t1).dropWhile (fun d => !(d = '>')) = '>' :: rest := by
    rw [List.dropWhile_cons, if_pos (by simp [hne]), hdw]
  have hAfter : afterGt (a :: t1) = rest := by
    unfold afterGt
    rw [hdw2]
    rfl
  rw [hAfter]
  have hsp : (a :: t1).span (fun d => !(d = '>')) =
      (a :: t1.takeWhile (fun d => !(d = '>')), '>' :: rest) := by
    rw [List.span_eq_take_drop, List.takeWhile_cons, if_pos (by simp [hne]), hdw2]
  have hlr : rest.length ≤ t1.length := by
    have happ : (t1.takeWhile (fun d => !(d = '>'))) ++ ('>' :: rest) = t1 := by
      rw [← hdw]
      exact List.takeWhile_append_dropWhile _ t1
    have := congrArg List.length happ
    simp only [List.length_append, List.length_cons] at this
    omega
  unfold stripTags
  simp only [List.length_cons]
  rw [stripTagsF_succ_span (t1.length + 1) (a :: t1) _ '>' rest hsp,
    if_neg (List.cons_ne_nil _ _),
    stripTagsF_fuel rest.length rest (le_refl _) (t1.length + 1) (by omega)]

/-- An all-whitespace string contains no `<`. -/
theorem no_lt_of_all_space (u : Str) (h : ∀ a ∈ u, pySpace a = true) : ('<') ∉ u :=
  fun hm => absurd (h '<' hm) (by decide)

/-- Left-stripping does not lengthen. -/
theorem lstripS_length_le (u : Str) : (lstripS u).length ≤ u.length := by
  induction u with
  | nil => exact le_refl _
  | cons c t ih =>
    by_cases h : pySpace c = true
    · rw [lstripS_cons_space c t h]
      exact le_trans ih (by simp)
    · rw [lstripS_cons_keep c t h]

/-- `>` survives left-stripping. -/
theorem gt_mem_lstrip : ∀ v : Str, ('>') ∈ lstripS v ↔ ('>') ∈ v := by
  intro v
  induction v with
  | nil => exact Iff.rfl
  | cons c t ih =>
    by_cases h : pySpace c = true
    · rw [lstripS_cons_space c t h, ih, List.mem_cons]
      constructor
      · exact Or.inr
      · rintro (he | h2)
        · exact absurd he.symm (ne_gt_of_space c h)
        · exact h2
    · rw [lstripS_cons_keep c t h]

/-- `>` occurs in `canonA u` exactly when it occurs in `u`. -/
theorem gt_mem_canonA : ∀ u : Str, ('>') ∈ canonA u ↔ ('>') ∈ u := by
  intro u
  induction u with
  | nil => exact Iff.rfl
  | cons c t ih =>
    by_cases hcs : pySpace c = true
    · rw [canonA_cons_space c t hcs]
      by_cases h0 : canon t = []
      · rw [if_pos h0]
        constructor
        · intro hm
          exact absurd hm (List.not_mem_nil _)
        · intro hm
          exfalso
          rcases List.mem_cons.mp hm with he | h2
          · exact ne_gt_of_space c hcs he.symm
          · exact absurd ((canon_eq_nil_iff t).mp h0 '>' h2) (by decide)
      · rw [if_neg h0, List.mem_cons, List.mem_cons]
        constructor
        · rintro (he | h2)
          · exact absurd he (by decide)
          · right
            rw [← ih]
            rw [canon_lstrip_canonA] at h2
            exact mem_dropWhile pySpace (canonA t) '>' h2
        · rintro (he | h2)
          · exact absurd he.symm (ne_gt_of_space c hcs)
          · right
            rw [canon_lstrip_canonA]
            exact (gt_mem_lstrip (canonA t)).mpr ((ih).mpr h2)
    · rw [canonA_cons_keep c t hcs, List.mem_cons, List.mem_cons, ih]
      have hiff : ('>' = pyLower c) ↔ ('>' = c) := by
        constructor
        · intro h
          exact ((pyLower_eq_gt_iff c).mp h.symm).symm
        · intro h
          exact ((pyLower_eq_gt_iff c).mpr h.symm).symm
      rw [hiff]

/-- `>` occurs in `canon u` exactly when it occurs in `u`. -/
theorem gt_mem_canon (u : Str) : ('>') ∈ canon u ↔ ('>') ∈ u := by
  rw [canon_lstrip_canonA, gt_mem_lstrip, gt_mem_canonA]

/-- `afterGt` skips a non-`>` head. -/
theorem afterGt_cons_ne (c : Char) (u : Str) (h : c ≠ '>') : afterGt (c :: u) = afterGt u := by
  unfold afterGt
  rw [List.dropWhile_cons, if_pos (by simp [h])]

/-- `afterGt` of a `>`-headed string is the tail. -/
theorem afterGt_gt_head (u : Str) : afterGt ('>' :: u) = u := by
  unfold afterGt
  rw [List.dropWhile_cons, if_neg (by simp)]
  rfl

/-- `afterGt` shortens a string containing `>`. -/
theorem afterGt_length_lt (t : Str) (h : ('>') ∈ t) : (afterGt t).length < t.length := by
  rcases dropWhile_ne_gt t h with ⟨rest, hdw⟩
  have happ : (t.takeWhile (fun d => !(d = '>'))) ++ ('>' :: rest) = t := by
    rw [← hdw]
    exact List.takeWhile_append_dropWhile _ t
  have hlen := congrArg List.length happ
  simp only [List.length_append, List.length_cons] at hlen
  unfold afterGt
  rw [hdw]
  show rest.length < t.length
  omega

/-- `canon (stripTags ·)` ignores leading whitespace. -/
theorem canon_stripTags_lstrip : ∀ x : Str, canon (stripTags x) = canon (stripTags (lstripS x)) := by
  intro x
  induction x with
  | nil => rfl
  | cons c t ih =>
    by_cases h : pySpace c = true
    · rw [lstripS_cons_space c t h, stripTags_cons_ne c t (ne_lt_of_space c h),
        canon_cons_space c _ h, ih]
    · rw [lstripS_cons_keep c t h]

/-- `canonA` after a left-strip is `canon`. -/
theorem canonA_lstrip_eq_canon : ∀ x : Str, canonA (lstripS x) = canon x := by
  intro x
  induction x with
  | nil => rfl
  | cons c t ih =>
    by_cases h : pySpace c = true
    · rw [lstripS_cons_space c t h, ih, canon_cons_space c t h]
    · rw [lstripS_cons_keep c t h, canonA_cons_keep c t h, canon_cons_keep c t h]

/-- Strings with equal canonical forms have their post-first-`>` parts
`canonA`-equal, and contain `>` together. -/
theorem afterGt_congr : ∀ (n : Nat) (t s : Str), t.length + s.length ≤ n →
    canon t = canon s → ('>') ∈ t →
    ('>') ∈ s ∧ canonA (afterGt t) = canonA (afterGt s) := by
  intro n
  induction n with
  | zero =>
    intro t s hl _ hm
    have ht : t.length = 0 := by omega
    rw [List.eq_nil_of_length_eq_zero ht] at hm
    exact absurd hm (List.not_mem_nil _)
  | succ n ih =>
    intro t s hlen hc hm
    cases t with
    | nil => exact absurd hm (List.not_mem_nil _)
    | cons a t1 =>
      by_cases ha : pySpace a = true
      · have hm1 : ('>') ∈ t1 := by
          rcases List.mem_cons.mp hm with he | h2
          · exact absurd he.symm (ne_gt_of_space a ha)
          · exact h2
        have hc1 : canon t1 = canon s := by
          rw [← canon_cons_space a t1 ha]
          exact hc
        have hrec := ih t1 s (by simp only [List.length_cons] at hlen; omega) hc1 hm1
        refine ⟨hrec.1, ?_⟩
        rw [afterGt_cons_ne a t1 (ne_gt_of_space a ha)]
        exact hrec.2
      · cases s with
        | nil =>
          exfalso
          have hall : ∀ c ∈ a :: t1, pySpace c = true := (canon_eq_nil_iff _).mp (by rw [hc]; rfl)
          exact ha (hall a (List.mem_cons_self a t1))
        | cons b s1 =>
          by_cases hb : pySpace b = true
          · have hc1 : canon (a :: t1) = canon s1 := by
              rw [hc, canon_cons_space b s1 hb]
            have hrec := ih (a :: t1) s1 (by simp only [List.length_cons] at hlen ⊢; omega) hc1 hm
            refine ⟨List.mem_cons_of_mem b hrec.1, ?_⟩
            rw [afterGt_cons_ne b s1 (ne_gt_of_space b hb)]
            exact hrec.2
          · rw [canon_cons_keep a t1 ha, canon_cons_keep b s1 hb] at hc
            have hlc : pyLower a = pyLower b := by
              injection hc
            have hA : canonA t1 = canonA s1 := by
              injection hc
            by_cases hag : a = '>'
            · subst hag
              have hb2 : b = '>' := by
                apply (pyLower_eq_gt_iff b).mp
                rw [← hlc]
                decide
              subst hb2
              refine ⟨List.mem_cons_self _ _, ?_⟩
              rw [afterGt_gt_head t1, afterGt_gt_head s1]
              exact hA
            · have hbg : b ≠ '>' := by
                intro hbe
                subst hbe
                exact hag ((pyLower_eq_gt_iff a).mp (by rw [hlc]; decide))
              have hm1 : ('>') ∈ t1 := by
                rcases List.mem_cons.mp hm with he | h2
                · exact absurd he.symm hag
                · exact h2
              have hc1 : canon t1 = canon s1 := by
                rw [canon_lstrip_canonA, canon_lstrip_canonA, hA]
              have hrec := ih t1 s1 (by simp only [List.length_cons] at hlen; omega) hc1 hm1
              refine ⟨List.mem_cons_of_mem b hrec.1, ?_⟩
              rw [afterGt_cons_ne a t1 hag, afterGt_cons_ne b s1 hbg]
              exact hrec.2

/-- Tag removal respects the canonical form: strings equal up to case and
whitespace (in the `canonA` sense) stay so after `stripTags`. -/
theorem canonA_stripTags_congr : ∀ (n : Nat) (x y : Str), x.length + y.length ≤ n →
    canonA x = canonA y → canonA (stripTags x) = canonA (stripTags y) := by
  intro n
  induction n with
  | zero =>
    intro x y hl hc
    have hx : x = [] := List.eq_nil_of_length_eq_zero (by omega)
    have hy : y = [] := List.eq_nil_of_length_eq_zero (by omega)
    subst hx
    subst hy
    rfl
  | succ n ih =>
    intro x y hlen hc
    cases x with
    | nil =>
      have hy : ∀ a ∈ y, pySpace a = true := (canonA_eq_nil_iff y).mp (by rw [← hc]; rfl)
      rw [stripTags_no_lt y (no_lt_of_all_space y hy)]
      exact hc
    | cons c t =>
      by_cases hcs : pySpace c = true
      · rw [canonA_cons_space c t hcs] at hc
        by_cases hct : canon t = []
        · rw [if_pos hct] at hc
          have hxw : ∀ a ∈ c :: t, pySpace a = true := by
            intro a ha
            rcases List.mem_cons.mp ha with rfl | h2
            · exact hcs
            · exact (canon_eq_nil_iff t).mp hct a h2
          have hyw : ∀ a ∈ y, pySpace a = true := (canonA_eq_nil_iff y).mp hc.symm
          rw [stripTags_no_lt _ (no_lt_of_all_space _ hxw),
            stripTags_no_lt _ (no_lt_of_all_space _ hyw),
            canonA_cons_space c t hcs, if_pos hct]
          exact hc
        · rw [if_neg hct] at hc
          cases y with
          | nil =>
            have hbad : ' ' :: canon t = [] := hc
            exact absurd hbad (List.cons_ne_nil _ _)
          | cons d s =>
            by_cases hds : pySpace d = true
            · rw [canonA_cons_space d s hds] at hc
              by_cases hcs2 : canon s = []
              · rw [if_pos hcs2] at hc
                exact absurd hc (List.cons_ne_nil _ _)
              · rw [if_neg hcs2] at hc
                have hts : canon t = canon s := by
                  injection hc
                have hSTts : canon (stripTags t) = canon (stripTags s) := by
                  have h1 : canonA (lstripS t) = canonA (lstripS s) := by
                    rw [canonA_lstrip_eq_canon, canonA_lstrip_eq_canon, hts]
                  have hlt := lstripS_length_le t
                  have hls := lstripS_length_le s
                  have h2 := ih (lstripS t) (lstripS s)
                    (by simp only [List.length_cons] at hlen; omega) h1
                  calc canon (stripTags t) = canon (stripTags (lstripS t)) :=
                        canon_stripTags_lstrip t
                    _ = lstripS (canonA (stripTags (lstripS t))) := canon_lstrip_canonA _
                    _ = lstripS (canonA (stripTags (lstripS s))) := by rw [h2]
                    _ = canon (stripTags (lstripS s)) := (canon_lstrip_canonA _).symm
                    _ = canon (stripTags s) := (canon_stripTags_lstrip s).symm
                rw [stripTags_cons_ne c t (ne_lt_of_space c hcs),
                  stripTags_cons_ne d s (ne_lt_of_space d hds),
                  canonA_cons_space c _ hcs, canonA_cons_space d _ hds, hSTts]
            · rw [canonA_cons_keep d s hds] at hc
              have hhd : ' ' = pyLower d := by
                injection hc
              exfalso
              have hsp2 : pySpace (pyLower d) = true := by
                rw [← hhd]
                decide
              rw [pySpace_pyLower] at hsp2
              exact hds hsp2
      · cases y with
        | nil =>
          rw [canonA_cons_keep c t hcs] at hc
          have hbad : pyLower c :: canonA t = [] := hc
          exact absurd hbad (List.cons_ne_nil _ _)
        | cons d s =>
          by_cases hds : pySpace d = true
          · rw [canonA_cons_keep c t hcs, canonA_cons_space d s hds] at hc
            by_cases hcs2 : canon s = []
            · rw [if_pos hcs2] at hc
              exact absurd hc (List.cons_ne_nil _ _)
            · rw [if_neg hcs2] at hc
              have hhd : pyLower c = ' ' := by
                injection hc
              exfalso
              have hsp2 : pySpace (pyLower c) = true := by
                rw [hhd]
                decide
              rw [pySpace_pyLower] at hsp2
              exact hcs hsp2
          · rw [canonA_cons_keep c t hcs, canonA_cons_keep d s hds] at hc
            have hlc : pyLower c = pyLower d := by
              injection hc
            have hA : canonA t = canonA s := by
              injection hc
            by_cases hlt : c = '<'
            · subst hlt
              have hdd : d = '<' := (pyLower_eq_lt_iff d).mp (by rw [← hlc]; decide)
              subst hdd
              by_cases hgt : ('>') ∈ t
              · have hgs : ('>') ∈ s := by
                  rw [← gt_mem_canonA s, ← hA, gt_mem_canonA t]
                  exact hgt
                cases t with
                | nil => exact absurd hgt (List.not_mem_nil _)
                | cons g t1 =>
                  cases s with
                  | nil => exact absurd hgs (List.not_mem_nil _)
                  | cons e s1 =>
                    have hgZ : canonA ('>' :: t1) = '>' :: canonA t1 := by
                      rw [canonA_cons_keep _ _ (by decide),
                        show pyLower '>' = '>' from by decide]
                    have hsZ : canonA ('>' :: s1) = '>' :: canonA s1 := by
                      rw [canonA_cons_keep _ _ (by decide),
                        show pyLower '>' = '>' from by decide]
                    by_cases hgg : g = '>'
                    · subst hgg
                      have he : e = '>' := by
                        by_cases hes : pySpace e = true
                        · exfalso
                          rw [canonA_cons_space e s1 hes, hgZ] at hA
                          by_cases h0 : canon s1 = []
                          · rw [if_pos h0] at hA
                            exact (List.cons_ne_nil _ _) hA
                          · rw [if_neg h0] at hA
                            have h2 : ('>' : Char) = ' ' := by
                              injection hA
                            exact absurd h2 (by decide)
                        · rw [canonA_cons_keep e s1 hes, hgZ] at hA
                          have h2 : ('>' : Char) = pyLower e := by
                            injection hA
                          exact (pyLower_eq_gt_iff e).mp h2.symm
                      subst he
                      have hA1 : canonA t1 = canonA s1 := by
                        rw [hgZ, hsZ] at hA
                        injection hA
                      rw [stripTags_lt_gt t1, stripTags_lt_gt s1,
                        canonA_cons_keep '<' _ (by decide), canonA_cons_keep '<' _ (by decide),
                        canonA_cons_keep '>' _ (by decide), canonA_cons_keep '>' _ (by decide),
                        ih t1 s1 (by simp only [List.length_cons] at hlen; omega) hA1]
                    · have he : e ≠ '>' := by
                        intro hee
                        subst hee
                        by_cases hgsp : pySpace g = true
                        · rw [canonA_cons_space g t1 hgsp, hsZ] at hA
                          by_cases h0 : canon t1 = []
                          · rw [if_pos h0] at hA
                            exact (List.cons_ne_nil _ _) hA.symm
                          · rw [if_neg h0] at hA
                            have h2 : (' ' : Char) = '>' := by
                              injection hA
                            exact absurd h2 (by decide)
                        · rw [canonA_cons_keep g t1 hgsp, hsZ] at hA
                          have h2 : pyLower g = '>' := by
                            injection hA
                          exact hgg ((pyLower_eq_gt_iff g).mp h2)
                      have hcc : canon (g :: t1) = canon (e :: s1) := by
                        rw [canon_lstrip_canonA, canon_lstrip_canonA, hA]
                      have hafg := afterGt_congr ((g :: t1).length + (e :: s1).length)
                        (g :: t1) (e :: s1) (le_refl _) hcc hgt
                      have hlt1 := afterGt_length_lt (g :: t1) hgt
                      have hls1 := afterGt_length_lt (e :: s1) hgs
                      rw [stripTags_lt_found g t1 hgg hgt, stripTags_lt_found e s1 he hgs]
                      exact ih (afterGt (g :: t1)) (afterGt (e :: s1))
                        (by simp only [List.length_cons] at hlen hlt1 hls1 ⊢; omega) hafg.2
              · have hgs : ('>') ∉ s := by
                  intro hm
                  exact hgt (by rw [← gt_mem_canonA t, hA, gt_mem_canonA s]; exact hm)
                rw [stripTags_lt_no_gt t hgt, stripTags_lt_no_gt s hgs,
                  canonA_cons_keep '<' t (by decide), canonA_cons_keep '<' s (by decide), hA]
            · have hdl : d ≠ '<' := by
                intro hdd
                subst hdd
                exact hlt ((pyLower_eq_lt_iff c).mp (by rw [hlc]; decide))
              rw [stripTags_cons_ne c t hlt, stripTags_cons_ne d s hdl,
                canonA_cons_keep c _ hcs, canonA_cons_keep d _ hds, hlc,
                ih t s (by simp only [List.length_cons] at hlen; omega) hA]

/-- Tag removal respects the canonical form (`canon` version). -/
theorem canon_stripTags_congr (x y : Str) (hc : canon x = canon y) :
    canon (stripTags x) = canon (stripTags y) := by
  have h1 : canonA (lstripS x) = canonA (lstripS y) := by
    rw [canonA_lstrip_eq_canon, canonA_lstrip_eq_canon, hc]
  have h2 := canonA_stripTags_congr ((lstripS x).length + (lstripS y).length)
    (lstripS x) (lstripS y) (le_refl _) h1
  calc canon (stripTags x) = canon (stripTags (lstripS x)) := canon_stripTags_lstrip x
    _ = lstripS (canonA (stripTags (lstripS x))) := canon_lstrip_canonA _
    _ = lstripS (canonA (stripTags (lstripS y))) := by rw [h2]
    _ = canon (stripTags (lstripS y)) := (canon_lstrip_canonA _).symm
    _ = canon (stripTags y) := (canon_stripTags_lstrip y).symm

/-- Whitespace characters are in the allowed class. -/
theorem allowedChar_of_space (c : Char) (h : pySpace c = true) :
    DataCleaner.allowedChar c = true := by
  unfold DataCleaner.allowedChar
  rw [h]
  simp

/-- Character filtering fixes all-whitespace strings. -/
theorem filterAllowed_all_space (v : Str) (h : ∀ a ∈ v, pySpace a = true) :
    DataCleaner.filterAllowed v = v :=
  List.filter_eq_self.mpr (fun a ha => allowedChar_of_space a (h a ha))

/-- `rstrip` over an append whose right part strips to empty. -/
theorem rstripS_append_nil (u : Str) (hu : rstripS u = []) :
    ∀ x : Str, rstripS (x ++ u) = rstripS x := by
  intro x
  induction x with
  | nil => exact hu
  | cons c x ih =>
    show rstripS (c :: (x ++ u)) = rstripS (c :: x)
    rcases hx : rstripS x with _ | ⟨r, rs⟩
    · rw [rstripS_cons_nil c _ (ih.trans hx), rstripS_cons_nil c x hx]
    · rw [rstripS_cons_cons c _ r rs (ih.trans hx), rstripS_cons_cons c x r rs hx]

/-- `rstrip` over an append whose right part strips to a cons. -/
theorem rstripS_append_cons (u : Str) (r : Char) (rs : Str) (hu : rstripS u = r :: rs) :
    ∀ x : Str, rstripS (x ++ u) = x ++ r :: rs := by
  intro x
  induction x with
  | nil => exact hu
  | cons c x ih =>
    show rstripS (c :: (x ++ u)) = c :: (x ++ r :: rs)
    rcases hx : x ++ r :: rs with _ | ⟨a, as⟩
    · exact absurd hx (by simp)
    · rw [rstripS_cons_cons c _ a as (ih.trans hx)]

/-- `rstrip` yields the empty string exactly on all-whitespace strings. -/
theorem rstripS_eq_nil_iff (u : Str) : rstripS u = [] ↔ ∀ a ∈ u, pySpace a = true := by
  constructor
  · induction u with
    | nil => exact fun _ a ha => absurd ha (List.not_mem_nil a)
    | cons c t ih =>
      intro h a ha
      rcases hr : rstripS t with _ | ⟨r, rs⟩
      · rw [rstripS_cons_nil c t hr] at h
        by_cases hc : pySpace c = true
        · rcases List.mem_cons.mp ha with rfl | h2
          · exact hc
          · exact ih hr a h2
        · rw [if_neg hc] at h
          exact absurd h (List.cons_ne_nil _ _)
      · rw [rstripS_cons_cons c t r rs hr] at h
        exact absurd h (List.cons_ne_nil _ _)
  · exact rstrip_eq_nil_of_all_space u

/-- Left-stripping before filtering does not change the left-stripped result. -/
theorem lstrip_filter (u : Str) :
    lstripS (DataCleaner.filterAllowed (lstripS u)) = lstripS (DataCleaner.filterAllowed u) := by
  induction u with
  | nil => rfl
  | cons c t ih =>
    by_cases h : pySpace c = true
    · rw [lstripS_cons_space c t h]
      have hf : DataCleaner.filterAllowed (c :: t) = c :: DataCleaner.filterAllowed t := by
        unfold DataCleaner.filterAllowed
        rw [List.filter_cons, if_pos (allowedChar_of_space c h)]
      rw [hf, lstripS_cons_space c _ h]
      exact ih
    · rw [lstripS_cons_keep c t h]

/-- Right-stripping before filtering does not change the right-stripped result. -/
theorem rstrip_filter : ∀ u : Str,
    rstripS (DataCleaner.filterAllowed (rstripS u)) = rstripS (DataCleaner.filterAllowed u) := by
  intro u
  induction u with
  | nil => rfl
  | cons c t ih =>
    have hfc : DataCleaner.filterAllowed (c :: t) =
        (if DataCleaner.allowedChar c = true then [c] else []) ++ DataCleaner.filterAllowed t := by
      unfold DataCleaner.filterAllowed
      rw [List.filter_cons]
      by_cases hac : DataCleaner.allowedChar c = true
      · rw [if_pos hac, if_pos hac]
        rfl
      · rw [if_neg hac, if_neg hac]
        rfl
    rcases hr : rstripS t with _ | ⟨r, rs⟩
    · have htw : ∀ a ∈ t, pySpace a = true := (rstripS_eq_nil_iff t).mp hr
      rw [rstripS_cons_nil c t hr]
      by_cases hc : pySpace c = true
      · rw [if_pos hc]
        have hw : ∀ a ∈ c :: t, pySpace a = true := by
          intro a ha
          rcases List.mem_cons.mp ha with rfl | h2
          · exact hc
          · exact htw a h2
        rw [filterAllowed_all_space (c :: t) hw,
          rstrip_eq_nil_of_all_space (c :: t) hw]
        rfl
      · rw [if_neg hc, hfc, filterAllowed_all_space t htw,
          rstripS_append_nil t hr]
        by_cases hac : DataCleaner.allowedChar c = true
        · have hfc1 : DataCleaner.filterAllowed [c] = [c] := by
            unfold DataCleaner.filterAllowed
            rw [List.filter_cons, if_pos hac]
            rfl
          rw [if_pos hac, hfc1]
        · have hfc1 : DataCleaner.filterAllowed [c] = [] := by
            unfold DataCleaner.filterAllowed
            rw [List.filter_cons, if_neg hac]
            rfl
          rw [if_neg hac, hfc1]
    · rw [rstripS_cons_cons c t r rs hr]
      have hfrr : DataCleaner.filterAllowed (c :: r :: rs) =
          (if DataCleaner.allowedChar c = true then [c] else []) ++
            DataCleaner.filterAllowed (r :: rs) := by
        unfold DataCleaner.filterAllowed
        rw [List.filter_cons]
        by_cases hac : DataCleaner.allowedChar c = true
        · rw [if_pos hac, if_pos hac]
          rfl
        · rw [if_neg hac, if_neg hac]
          rfl
      rw [hfrr, hfc]
      have ih2 : rstripS (DataCleaner.filterAllowed (r :: rs)) =
          rstripS (DataCleaner.filterAllowed t) := by
        rw [← hr]
        exact ih
      rcases hh : rstripS (DataCleaner.filterAllowed t) with _ | ⟨a, as⟩
      · rw [rstripS_append_nil _ (ih2.trans hh), rstripS_append_nil _ hh]
      · rw [rstripS_append_cons _ a as (ih2.trans hh), rstripS_append_cons _ a as hh]

/-- Stripping before filtering does not change the stripped result. -/
theorem strip_filter (u : Str) :
    stripS (DataCleaner.filterAllowed (stripS u)) = stripS (DataCleaner.filterAllowed u) := by
  show lstripS (rstripS (DataCleaner.filterAllowed (lstripS (rstripS u)))) = _
  rw [← lstrip_rstrip_comm, lstrip_filter (rstripS u), lstrip_rstrip_comm, rstrip_filter u]
  rfl

/-- `str.lower` commutes with `collapseWs`. -/
theorem collapseWs_lowerS (l : Str) : collapseWs (lowerS l) = lowerS (collapseWs l) :=
  collapseWsA_lowerS false l

/-- Closed form: the lower-cased `clean_text` output is the stripped
character-filtered canonical form of the tag-stripped input. -/
theorem lower_clean_text (t : Str) :
    lowerS (DataCleaner.clean_text t) =
      stripS (DataCleaner.filterAllowed (canon (stripTags t))) := by
  by_cases ht : t = []
  · subst ht
    rfl
  · unfold DataCleaner.clean_text
    rw [if_neg ht]
    show lowerS (stripS (DataCleaner.filterAllowed (collapseWs (stripTags t)))) = _
    rw [← stripS_lowerS, ← filterAllowed_lowerS, ← collapseWs_lowerS]
    have hcanon : canon (stripTags t) = stripS (collapseWs (lowerS (stripTags t))) := by
      unfold canon
      rw [collapseWs_lowerS, stripS_lowerS]
    rw [hcanon, strip_filter]

/-- `clean_text` outputs, lower-cased, agree on inputs with equal canonical
forms. -/
theorem lower_clean_text_congr (t1 t2 : Str) (h : canon t1 = canon t2) :
    lowerS (DataCleaner.clean_text t1) = lowerS (DataCleaner.clean_text t2) := by
  rw [lower_clean_text, lower_clean_text, canon_stripTags_congr t1 t2 h]

/-- Characters of `stripTagsF` output come from the input. -/
theorem mem_stripTagsF : ∀ (f : Nat) (l : Str) (a : Char), a ∈ stripTagsF f l → a ∈ l := by
  intro f
  induction f with
  | zero =>
    intro l a ha
    exact ha
  | succ f ih =>
    intro l a ha
    cases l with
    | nil =>
      rw [stripTagsF_nil] at ha
      exact ha
    | cons c t =>
      by_cases hc : c = '<'
      · subst hc
        rcases hsp : t.span (fun d => !(d = '>')) with ⟨pre, post⟩
        have hsp2 := (List.span_eq_take_drop (fun d => !(d = '>')) t).symm.trans hsp
        have hpre : t.takeWhile (fun d => !(d = '>')) = pre := congrArg Prod.fst hsp2
        have hpost : t.dropWhile (fun d => !(d = '>')) = post := congrArg Prod.snd hsp2
        have happ : pre ++ post = t := by
          rw [← hpre, ← hpost]
          exact List.takeWhile_append_dropWhile _ t
        cases post with
        | nil =>
          rw [stripTagsF_succ_span_nil f t pre hsp] at ha
          exact ha
        | cons g rest =>
          rw [stripTagsF_succ_span f t pre g rest hsp] at ha
          have hrest : ∀ b ∈ rest, b ∈ t := by
            intro b hb
            rw [← happ]
            exact List.mem_append_right pre (List.mem_cons_of_mem g hb)
          have hg : g ∈ t := by
            rw [← happ]
            exact List.mem_append_right pre (List.mem_cons_self g rest)
          by_cases hp : pre = []
          · rw [if_pos hp] at ha
            rcases List.mem_cons.mp ha with rfl | ha2
            · exact List.mem_cons_self _ _
            · rcases List.mem_cons.mp ha2 with rfl | ha3
              · exact List.mem_cons_of_mem _ hg
              · exact List.mem_cons_of_mem _ (hrest a (ih rest a ha3))
          · rw [if_neg hp] at ha
            exact List.mem_cons_of_mem _ (hrest a (ih rest a ha))
      · rw [stripTagsF_succ_ne f c t hc] at ha
        rcases List.mem_cons.mp ha with rfl | ha2
        · exact List.mem_cons_self _ _
        · exact List.mem_cons_of_mem _ (ih t a ha2)

/-- Characters of `clean_text` output come from the input, or are spaces. -/
theorem mem_clean_text (x : Str) (a : Char) (h : a ∈ DataCleaner.clean_text x) :
    a ∈ x ∨ a = ' ' := by
  by_cases hx : x = []
  · subst hx
    rw [show DataCleaner.clean_text [] = [] from rfl] at h
    exact absurd h (List.not_mem_nil a)
  · unfold DataCleaner.clean_text at h
    rw [if_neg hx] at h
    have h1 := mem_stripS _ a h
    have h2 : a ∈ collapseWs (stripTags (DataCleaner.nfkd x)) := List.mem_of_mem_filter h1
    rcases mem_collapseWsA _ false a h2 with h3 | rfl
    · left
      exact mem_stripTagsF _ _ a h3
    · right
      rfl

/-- `clean_text` of a lower-cased input is already lower-case. -/
theorem clean_text_lower_fixed (d : Str) :
    lowerS (DataCleaner.clean_text (lowerS d)) = DataCleaner.clean_text (lowerS d) := by
  have hfix : ∀ a ∈ DataCleaner.clean_text (lowerS d), pyLower a = a := by
    intro a ha
    rcases mem_clean_text (lowerS d) a ha with h1 | rfl
    · rcases List.mem_map.mp h1 with ⟨b, _, rfl⟩
      exact pyLower_idem b
    · decide
  exact (List.map_congr_left hfix).trans (List.map_id _)

/-- `clean_text` after lower-casing agrees on inputs with equal canonical
forms. -/
theorem clean_text_lower_congr (d1 d2 : Str) (h : canon d1 = canon d2) :
    DataCleaner.clean_text (lowerS d1) = DataCleaner.clean_text (lowerS d2) := by
  have h1 : canon (lowerS d1) = canon (lowerS d2) := by
    rw [canon_lowerS, canon_lowerS, h]
  have h2 := lower_clean_text_congr _ _ h1
  rw [← clean_text_lower_fixed d1, ← clean_text_lower_fixed d2]
  exact h2

/-- An all-whitespace (canonically empty) input cleans to the empty string. -/
theorem clean_text_canon_nil (t : Str) (h : canon t = []) : DataCleaner.clean_text t = [] := by
  have h2 := lower_clean_text t
  have h3 : canon (stripTags t) = [] := canon_stripTags_congr t [] (by rw [h]; rfl)
  rw [h3] at h2
  have h4 : lowerS (DataCleaner.clean_text t) = [] := h2
  exact List.map_eq_nil_iff.mp h4

/-- `normalize_department` maps every input whose cleaning is empty to the
empty string. -/
theorem normalize_department_of_nil (d : Str) (h : DataCleaner.clean_text (lowerS d) = []) :
    DataCleaner.normalize_department d = [] := by
  by_cases hd : d = []
  · subst hd
    rfl
  · unfold DataCleaner.normalize_department
    rw [if_neg hd, h]
    decide

/-- `normalize_department` agrees on inputs with equal canonical forms. -/
theorem normalize_department_congr (d1 d2 : Str) (h : canon d1 = canon d2) :
    DataCleaner.normalize_department d1 = DataCleaner.normalize_department d2 := by
  by_cases hd1 : d1 = []
  · by_cases hd2 : d2 = []
    · rw [hd1, hd2]
    · rw [hd1]
      refine (normalize_department_of_nil d2 ?_).symm
      refine clean_text_canon_nil (lowerS d2) ?_
      rw [canon_lowerS, ← h, hd1]
      rfl
  · by_cases hd2 : d2 = []
    · rw [hd2]
      refine normalize_department_of_nil d1 ?_
      refine clean_text_canon_nil (lowerS d1) ?_
      rw [canon_lowerS, h, hd2]
      rfl
    · unfold DataCleaner.normalize_department
      rw [if_neg hd1, if_neg hd2, clean_text_lower_congr d1 d2 h]

/-- `normalize_location` maps every input whose cleaning is empty to the
empty string. -/
theorem normalize_location_of_nil (l : Str) (h : DataCleaner.clean_text (lowerS l) = []) :
    DataCleaner.normalize_location l = [] := by
  by_cases hl : l = []
  · subst hl
    rfl
  · unfold DataCleaner.normalize_location
    rw [if_neg hl, h]
    decide

/-- `normalize_location` agrees on inputs with equal canonical forms. -/
theorem normalize_location_congr (l1 l2 : Str) (h : canon l1 = canon l2) :
    DataCleaner.normalize_location l1 = DataCleaner.normalize_location l2 := by
  by_cases hl1 : l1 = []
  · by_cases hl2 : l2 = []
    · rw [hl1, hl2]
    · rw [hl1]
      refine (normalize_location_of_nil l2 ?_).symm
      refine clean_text_canon_nil (lowerS l2) ?_
      rw [canon_lowerS, ← h, hl1]
      rfl
  · by_cases hl2 : l2 = []
    · rw [hl2]
      refine normalize_location_of_nil l1 ?_
      refine clean_text_canon_nil (lowerS l1) ?_
      rw [canon_lowerS, h, hl2]
      rfl
    · unfold DataCleaner.normalize_location
      rw [if_neg hl1, if_neg hl2, clean_text_lower_congr l1 l2 h]



/-- Equal lower-casings force equal lengths. -/
theorem lowerS_eq_length (l1 l2 : Str) (h : lowerS l1 = lowerS l2) : l1.length = l2.length := by
  have h2 := congrArg List.length h
  rw [lowerS_length, lowerS_length] at h2
  exact h2

/-- `strStartsCI` reads only the lower-cased input. -/
theorem strStartsCI_eq_lower : ∀ (l p : Str), strStartsCI l p = strStarts (lowerS l) p := by
  intro l
  induction l with
  | nil =>
    intro p
    cases p <;> rfl
  | cons c s ih =>
    intro p
    cases p with
    | nil => rfl
    | cons q qs =>
      show (decide (pyLower c = q) && strStartsCI s qs) =
        (decide (pyLower c = q) && strStarts (lowerS s) qs)
      rw [ih qs]

/-- `nextNonWord` reads only the lower-cased input. -/
theorem nextNonWord_congr (l1 l2 : Str) (h : lowerS l1 = lowerS l2) :
    nextNonWord l1 = nextNonWord l2 := by
  cases l1 with
  | nil =>
    cases l2 with
    | nil => rfl
    | cons d s =>
      exact absurd h.symm (by simp [lowerS])
  | cons c t =>
    cases l2 with
    | nil => exact absurd h (by simp [lowerS])
    | cons d s =>
      have hhd : pyLower c = pyLower d := by
        have h2 : pyLower c :: lowerS t = pyLower d :: lowerS s := h
        injection h2
      show (!pyWordChar c) = (!pyWordChar d)
      rw [← pyWordChar_pyLower c, ← pyWordChar_pyLower d, hhd]

/-- `lastOfTake`, lower-cased, reads only the lower-cased input. -/
theorem lastOfTake_congr (l1 l2 : Str) (n : Nat) (h : lowerS l1 = lowerS l2) :
    (lastOfTake l1 n).map pyLower = (lastOfTake l2 n).map pyLower := by
  unfold lastOfTake
  rw [← List.getLast?_map, ← List.getLast?_map, List.map_take, List.map_take]
  show ((lowerS l1).take n).getLast? = ((lowerS l2).take n).getLast?
  rw [h]

/-- Equation for `matchSeqCI` on the empty pattern list. -/
theorem matchSeqCI_nil (l : Str) : matchSeqCI [] l = some l := rfl

/-- Equation for `matchSeqCI` on a single pattern. -/
theorem matchSeqCI_single (w : Str) (l : Str) :
    matchSeqCI [w] l = if strStartsCI l w then some (l.drop w.length) else none := rfl

/-- Equation for `matchSeqCI` on two or more patterns. -/
theorem matchSeqCI_cons2 (w w2 : Str) (ws : List Str) (l : Str) :
    matchSeqCI (w :: w2 :: ws) l =
      if strStartsCI l w then
        (if (l.drop w.length).takeWhile pySpace = [] then none
         else matchSeqCI (w2 :: ws)
           ((l.drop w.length).drop ((l.drop w.length).takeWhile pySpace).length))
      else none := rfl

/-- `matchSeqCI`, lower-cased, reads only the lower-cased input. -/
theorem matchSeqCI_congr : ∀ (ws : List Str) (l1 l2 : Str), lowerS l1 = lowerS l2 →
    Option.map lowerS (matchSeqCI ws l1) = Option.map lowerS (matchSeqCI ws l2) := by
  intro ws
  induction ws with
  | nil =>
    intro l1 l2 h
    rw [matchSeqCI_nil, matchSeqCI_nil]
    show some (lowerS l1) = some (lowerS l2)
    rw [h]
  | cons w ws ih =>
    intro l1 l2 h
    have hcond : strStartsCI l1 w = strStartsCI l2 w := by
      rw [strStartsCI_eq_lower, strStartsCI_eq_lower, h]
    have hr : lowerS (l1.drop w.length) = lowerS (l2.drop w.length) := by
      rw [show lowerS (List.drop w.length l1) = (lowerS l1).drop w.length from
          List.map_drop pyLower l1 w.length,
        show lowerS (List.drop w.length l2) = (lowerS l2).drop w.length from
          List.map_drop pyLower l2 w.length, h]
    cases ws with
    | nil =>
      rw [matchSeqCI_single, matchSeqCI_single, ← hcond]
      by_cases hs : strStartsCI l1 w = true
      · rw [if_pos hs, if_pos hs]
        show some (lowerS (List.drop w.length l1)) = some (lowerS (List.drop w.length l2))
        rw [hr]
      · rw [if_neg hs, if_neg hs]
    | cons w2 ws2 =>
      rw [matchSeqCI_cons2, matchSeqCI_cons2, ← hcond]
      by_cases hs : strStartsCI l1 w = true
      · rw [if_pos hs, if_pos hs]
        have hsp : lowerS ((l1.drop w.length).takeWhile pySpace) =
            lowerS ((l2.drop w.length).takeWhile pySpace) := by
          rw [← takeWhile_pySpace_lowerS, ← takeWhile_pySpace_lowerS, hr]
        have hsplen : ((l1.drop w.length).takeWhile pySpace).length =
            ((l2.drop w.length).takeWhile pySpace).length := lowerS_eq_length _ _ hsp
        by_cases hnil : (l1.drop w.length).takeWhile pySpace = []
        · have hnil2 : (l2.drop w.length).takeWhile pySpace = [] := by
            apply List.eq_nil_of_length_eq_zero
            rw [← hsplen, hnil]
            rfl
          rw [if_pos hnil, if_pos hnil2]
        · have hnil2 : ¬(l2.drop w.length).takeWhile pySpace = [] := by
            intro h0
            apply hnil
            apply List.eq_nil_of_length_eq_zero
            rw [hsplen, h0]
            rfl
          rw [if_neg hnil, if_neg hnil2, hsplen]
          apply ih
          rw [show lowerS (List.drop ((l2.drop w.length).takeWhile pySpace).length
                (List.drop w.length l1)) =
              (lowerS (List.drop w.length l1)).drop
                ((l2.drop w.length).takeWhile pySpace).length from
              List.map_drop pyLower _ _,
            show lowerS (List.drop ((l2.drop w.length).takeWhile pySpace).length
                (List.drop w.length l2)) =
              (lowerS (List.drop w.length l2)).drop
                ((l2.drop w.length).takeWhile pySpace).length from
              List.map_drop pyLower _ _, hr]
      · rw [if_neg hs, if_neg hs]

/-- `bdOK` reads only the lower-cased previous character. -/
theorem bdOK_congr (pv1 pv2 : Option Char) (h : pv1.map pyLower = pv2.map pyLower) :
    bdOK pv1 = bdOK pv2 := by
  cases pv1 with
  | none =>
    cases pv2 with
    | none => rfl
    | some q => exact absurd h (by simp)
  | some p =>
    cases pv2 with
    | none => exact absurd h (by simp)
    | some q =>
      have hpq : pyLower p = pyLower q := by
        have h2 : some (pyLower p) = some (pyLower q) := h
        injection h2
      show (!pyWordChar p) = (!pyWordChar q)
      rw [← pyWordChar_pyLower p, ← pyWordChar_pyLower q, hpq]

/-- `findSome?` congruence through `lowerRes`. -/
theorem findSome?_lowerRes {α : Type} (f g : α → Option (Str × Option Char × Str))
    (hfg : ∀ a, lowerRes (f a) = lowerRes (g a)) :
    ∀ (l : List α), lowerRes (l.findSome? f) = lowerRes (l.findSome? g) := by
  intro l
  induction l with
  | nil => rfl
  | cons a l ih =>
    rw [List.findSome?_cons, List.findSome?_cons]
    rcases hf : f a with _ | v
    · rcases hg : g a with _ | w
      · exact ih
      · exfalso
        have h2 := hfg a
        rw [hf, hg] at h2
        simp [lowerRes] at h2
    · rcases hg : g a with _ | w
      · exfalso
        have h2 := hfg a
        rw [hf, hg] at h2
        simp [lowerRes] at h2
      · have h2 := hfg a
        rw [hf, hg] at h2
        exact h2

/-- The phrase-substitution step, lower-cased, reads only the lower-cased
inputs. -/
theorem subPhrasesStep_congr (alts : List (List Str)) (rep : Str) (pv1 pv2 : Option Char)
    (l1 l2 : Str) (hpv : pv1.map pyLower = pv2.map pyLower) (h : lowerS l1 = lowerS l2) :
    lowerRes (subPhrasesStep alts rep pv1 l1) = lowerRes (subPhrasesStep alts rep pv2 l2) := by
  unfold subPhrasesStep
  rw [bdOK_congr pv1 pv2 hpv]
  by_cases hbd : bdOK pv2 = true
  · rw [if_pos hbd, if_pos hbd]
    apply findSome?_lowerRes
    intro ws
    beta_reduce
    have hms := matchSeqCI_congr ws l1 l2 h
    rcases hm1 : matchSeqCI ws l1 with _ | r1
    · rcases hm2 : matchSeqCI ws l2 with _ | r2
      · rfl
      · exfalso
        rw [hm1, hm2] at hms
        simp at hms
    · rcases hm2 : matchSeqCI ws l2 with _ | r2
      · exfalso
        rw [hm1, hm2] at hms
        simp at hms
      · rw [hm1, hm2] at hms
        have hrr : lowerS r1 = lowerS r2 := by
          have h2 : some (lowerS r1) = some (lowerS r2) := hms
          injection h2
        show lowerRes (if nextNonWord r1 = true then
            some (rep, lastOfTake l1 (l1.length - r1.length), r1) else none) =
          lowerRes (if nextNonWord r2 = true then
            some (rep, lastOfTake l2 (l2.length - r2.length), r2) else none)
        rw [nextNonWord_congr r1 r2 hrr]
        by_cases hnw : nextNonWord r2 = true
        · rw [if_pos hnw, if_pos hnw]
          have hlen12 : l1.length = l2.length := lowerS_eq_length l1 l2 h
          have hlenr : r1.length = r2.length := lowerS_eq_length r1 r2 hrr
          show some (rep, (lastOfTake l1 (l1.length - r1.length)).map pyLower, lowerS r1) =
            some (rep, (lastOfTake l2 (l2.length - r2.length)).map pyLower, lowerS r2)
          rw [hlen12, hlenr, lastOfTake_congr l1 l2 (l2.length - r2.length) h, hrr]
        · rw [if_neg hnw, if_neg hnw]
  · rw [if_neg hbd, if_neg hbd]

/-- The phrase-substitution scanner, lower-cased, reads only the lower-cased
inputs. -/
theorem scanSubF_subPhrases_congr (alts : List (List Str)) (rep : Str) :
    ∀ (f : Nat) (pv1 pv2 : Option Char) (l1 l2 : Str),
    pv1.map pyLower = pv2.map pyLower → lowerS l1 = lowerS l2 →
    lowerS (scanSubF (subPhrasesStep alts rep) f pv1 l1) =
      lowerS (scanSubF (subPhrasesStep alts rep) f pv2 l2) := by
  intro f
  induction f with
  | zero =>
    intro pv1 pv2 l1 l2 _ h
    exact h
  | succ f ih =>
    intro pv1 pv2 l1 l2 hpv h
    cases l1 with
    | nil =>
      cases l2 with
      | nil => rfl
      | cons d s => exact absurd h (by simp [lowerS])
    | cons c t =>
      cases l2 with
      | nil => exact absurd h (by simp [lowerS])
      | cons d s =>
        have hstep := subPhrasesStep_congr alts rep pv1 pv2 (c :: t) (d :: s) hpv h
        have hhd : pyLower c = pyLower d := by
          have h2 : pyLower c :: lowerS t = pyLower d :: lowerS s := h
          injection h2
        have htl : lowerS t = lowerS s := by
          have h2 : pyLower c :: lowerS t = pyLower d :: lowerS s := h
          injection h2
        have e1 : scanSubF (subPhrasesStep alts rep) (f + 1) pv1 (c :: t) =
            (match subPhrasesStep alts rep pv1 (c :: t) with
             | some (r, q, rest) => r ++ scanSubF (subPhrasesStep alts rep) f q rest
             | none => c :: scanSubF (subPhrasesStep alts rep) f (some c) t) := rfl
        have e2 : scanSubF (subPhrasesStep alts rep) (f + 1) pv2 (d :: s) =
            (match subPhrasesStep alts rep pv2 (d :: s) with
             | some (r, q, rest) => r ++ scanSubF (subPhrasesStep alts rep) f q rest
             | none => d :: scanSubF (subPhrasesStep alts rep) f (some d) s) := rfl
        rw [e1, e2]
        rcases h1 : subPhrasesStep alts rep pv1 (c :: t) with _ | ⟨r1, q1, rest1⟩
        · rcases h2 : subPhrasesStep alts rep pv2 (d :: s) with _ | ⟨r2, q2, rest2⟩
          · show pyLower c :: lowerS (scanSubF (subPhrasesStep alts rep) f (some c) t) =
              pyLower d :: lowerS (scanSubF (subPhrasesStep alts rep) f (some d) s)
            rw [hhd, ih (some c) (some d) t s (by show some (pyLower c) = some (pyLower d); rw [hhd]) htl]
          · exfalso
            rw [h1, h2] at hstep
            simp [lowerRes] at hstep
        · rcases h2 : subPhrasesStep alts rep pv2 (d :: s) with _ | ⟨r2, q2, rest2⟩
          · exfalso
            rw [h1, h2] at hstep
            simp [lowerRes] at hstep
          · rw [h1, h2] at hstep
            have h3 := Option.some.inj hstep
            have hr : r1 = r2 := congrArg Prod.fst h3
            have hq : q1.map pyLower = q2.map pyLower := congrArg (fun z => z.snd.fst) h3
            have hrest : lowerS rest1 = lowerS rest2 := congrArg (fun z => z.snd.snd) h3
            show lowerS (r1 ++ scanSubF (subPhrasesStep alts rep) f q1 rest1) =
              lowerS (r2 ++ scanSubF (subPhrasesStep alts rep) f q2 rest2)
            rw [lowerS_append, lowerS_append, hr, ih q1 q2 rest1 rest2 hq hrest]

/-- `subPhrases`, lower-cased, reads only the lower-cased input. -/
theorem subPhrases_lower_congr (alts : List (List Str)) (rep : Str) (l1 l2 : Str)
    (h : lowerS l1 = lowerS l2) :
    lowerS (subPhrases alts rep l1) = lowerS (subPhrases alts rep l2) := by
  unfold subPhrases scanSub
  rw [lowerS_eq_length l1 l2 h]
  exact scanSubF_subPhrases_congr alts rep l2.length none none l1 l2 rfl h

/-- `subWord`, lower-cased, reads only the lower-cased input. -/
theorem subWord_lower_congr (pat rep : Str) (l1 l2 : Str) (h : lowerS l1 = lowerS l2) :
    lowerS (subWord pat rep l1) = lowerS (subWord pat rep l2) :=
  subPhrases_lower_congr [[pat]] rep l1 l2 h

/-- The abbreviation-expansion fold, lower-cased, reads only the lower-cased
input. -/
theorem foldl_subWord_congr : ∀ (maps : List (Str × Str)) (a b : Str), lowerS a = lowerS b →
    lowerS (maps.foldl (fun s p => subWord p.1 p.2 s) a) =
      lowerS (maps.foldl (fun s p => subWord p.1 p.2 s) b) := by
  intro maps
  induction maps with
  | nil => exact fun a b h => h
  | cons m maps ih =>
    intro a b h
    exact ih (subWord m.1 m.2 a) (subWord m.1 m.2 b) (subWord_lower_congr m.1 m.2 a b h)

/-- `pyCapitalize` reads only the lower-cased input. -/
theorem pyCapitalize_lowerS (w : Str) : pyCapitalize (lowerS w) = pyCapitalize w := by
  cases w with
  | nil => rfl
  | cons c t =>
    show pyUpper (pyLower c) :: lowerS (lowerS t) = pyUpper c :: lowerS t
    rw [pyUpper_pyLower, lowerS_lowerS]

/-- The stop-word-aware capitalization of `clean_title` reads only the
lower-cased words. -/
theorem capMap_eq_lower (x : Str) :
    (pySplit x).map
      (fun w => if DataCleaner.titleStop.contains (lowerS w) then lowerS w else pyCapitalize w) =
    (pySplit (lowerS x)).map
      (fun lw => if DataCleaner.titleStop.contains lw then lw else pyCapitalize lw) := by
  rw [pySplit_lowerS, List.map_map]
  apply List.map_congr_left
  intro w _
  show (if DataCleaner.titleStop.contains (lowerS w) then lowerS w else pyCapitalize w) =
    (if DataCleaner.titleStop.contains (lowerS w) then lowerS w else pyCapitalize (lowerS w))
  by_cases hcon : DataCleaner.titleStop.contains (lowerS w) = true
  · rw [if_pos hcon, if_pos hcon]
  · rw [if_neg hcon, if_neg hcon, pyCapitalize_lowerS]

/-- The final collapse-strip-split-capitalize stages of `clean_title` agree
on inputs with equal lower-casings. -/
theorem title_stages_congr (x1 x2 : Str) (h : lowerS x1 = lowerS x2) :
    joinSep " ".data ((pySplit (stripS (collapseWs x1))).map
      (fun w => if DataCleaner.titleStop.contains (lowerS w) then lowerS w else pyCapitalize w)) =
    joinSep " ".data ((pySplit (stripS (collapseWs x2))).map
      (fun w => if DataCleaner.titleStop.contains (lowerS w) then lowerS w else pyCapitalize w)) := by
  have hy : lowerS (stripS (collapseWs x1)) = lowerS (stripS (collapseWs x2)) := by
    rw [← stripS_lowerS, ← stripS_lowerS, ← collapseWs_lowerS, ← collapseWs_lowerS, h]
  rw [capMap_eq_lower (stripS (collapseWs x1)), capMap_eq_lower (stripS (collapseWs x2)), hy]

/-- `clean_title` maps every input whose cleaning is empty to the empty
string. -/
theorem clean_title_of_nil (t : Str) (h : DataCleaner.clean_text t = []) :
    DataCleaner.clean_title t = [] := by
  by_cases ht : t = []
  · subst ht
    rfl
  · unfold DataCleaner.clean_title
    rw [if_neg ht, h]
    decide

/-- `clean_title` agrees on inputs with equal canonical forms. -/
theorem clean_title_congr (t1 t2 : Str) (h : canon t1 = canon t2) :
    DataCleaner.clean_title t1 = DataCleaner.clean_title t2 := by
  by_cases ht1 : t1 = []
  · by_cases ht2 : t2 = []
    · rw [ht1, ht2]
    · rw [ht1]
      refine (clean_title_of_nil t2 (clean_text_canon_nil t2 ?_)).symm
      rw [← h, ht1]
      rfl
  · by_cases ht2 : t2 = []
    · rw [ht2]
      refine clean_title_of_nil t1 (clean_text_canon_nil t1 ?_)
      rw [h, ht2]
      rfl
    · unfold DataCleaner.clean_title
      rw [if_neg ht1, if_neg ht2]
      apply title_stages_congr
      apply subPhrases_lower_congr
      apply subPhrases_lower_congr
      apply subPhrases_lower_congr
      apply foldl_subWord_congr
      exact lower_clean_text_congr t1 t2 h

/-- The dedup key depends only on the canonical forms (case- and
whitespace-insensitive) of the three key fields. -/
theorem dedupKey_congr (r1 r2 : DataCleaner.JobRec)
    (ht : canon r1.title = canon r2.title)
    (hd : canon r1.department = canon r2.department)
    (hl : canon r1.location = canon r2.location) :
    DataCleaner.dedupKey r1 = DataCleaner.dedupKey r2 := by
  unfold DataCleaner.dedupKey
  rw [clean_title_congr _ _ ht, normalize_department_congr _ _ hd,
    normalize_location_congr _ _ hl]

/-- A record whose key is already in `seen` is dropped wherever it occurs,
leaving the scan unchanged. -/
theorem dedupF_skip_seen (j : DataCleaner.JobRec) :
    ∀ (u : List DataCleaner.JobRec) (v : List DataCleaner.JobRec) (seen : List Str),
      DataCleaner.dedupKey j ∈ seen →
      DataCleaner.dedupF seen (u ++ j :: v) = DataCleaner.dedupF seen (u ++ v) := by
  intro u
  induction u with
  | nil =>
    intro v seen hmem
    simp [DataCleaner.dedupF, hmem]
  | cons a u ih =>
    intro v seen hmem
    simp only [List.cons_append, DataCleaner.dedupF]
    split
    · exact congrArg _ (ih v _ (List.mem_cons_of_mem _ hmem))
    · exact ih v seen hmem

/-- The first record of a fresh non-empty key is kept, and any later record
with the same key is dropped without affecting the output. -/
theorem dedupF_keep_first (A B : DataCleaner.JobRec)
    (hkey : DataCleaner.dedupKey B = DataCleaner.dedupKey A)
    (hne : DataCleaner.dedupKey A ≠ []) :
    ∀ (l1 : List DataCleaner.JobRec) (seen : List Str),
      (∀ b ∈ l1, DataCleaner.dedupKey b ≠ DataCleaner.dedupKey A) →
      DataCleaner.dedupKey A ∉ seen →
      ∀ (l2 l3 : List DataCleaner.JobRec),
        A ∈ DataCleaner.dedupF seen (l1 ++ A :: (l2 ++ B :: l3)) ∧
        DataCleaner.dedupF seen (l1 ++ A :: (l2 ++ B :: l3)) =
          DataCleaner.dedupF seen (l1 ++ A :: (l2 ++ l3)) := by
  intro l1
  induction l1 with
  | nil =>
    intro seen _ hseen l2 l3
    have hcont : seen.contains (DataCleaner.dedupKey A) = false :=
      Bool.eq_false_iff.mpr (fun hc => hseen (List.elem_iff.mp hc))
    have estep : ∀ w : List DataCleaner.JobRec,
        DataCleaner.dedupF seen (A :: w) =
          A :: DataCleaner.dedupF (DataCleaner.dedupKey A :: seen) w := by
      intro w
      simp [DataCleaner.dedupF, hseen, hne]
    have hdrop := dedupF_skip_seen B l2 l3 (DataCleaner.dedupKey A :: seen)
      (by rw [hkey]; exact List.mem_cons_self _ _)
    constructor
    · simp only [List.nil_append]
      rw [estep (l2 ++ B :: l3)]
      exact List.mem_cons_self _ _
    · simp only [List.nil_append]
      rw [estep (l2 ++ B :: l3), estep (l2 ++ l3)]
      exact congrArg _ hdrop
  | cons a l1 ih =>
    intro seen hl1 hseen l2 l3
    have hka : DataCleaner.dedupKey a ≠ DataCleaner.dedupKey A :=
      hl1 a (List.mem_cons_self a l1)
    have hl1t : ∀ b ∈ l1, DataCleaner.dedupKey b ≠ DataCleaner.dedupKey A :=
      fun b hb => hl1 b (List.mem_cons_of_mem a hb)
    simp only [List.cons_append, DataCleaner.dedupF]
    split
    · have hrec := ih (DataCleaner.dedupKey a :: seen) hl1t
        (by
          intro hm
          rcases List.mem_cons.mp hm with he | h2
          · exact hka he.symm
          · exact hseen h2) l2 l3
      exact ⟨List.mem_cons_of_mem a hrec.1, congrArg _ hrec.2⟩
    · have hrec := ih seen hl1t hseen l2 l3
      exact hrec

/-- Claim C5 counterexample: the order-stability statement fails as written.
Two records whose key fields are all empty share the same (empty) dedup key,
yet the batch `[A, A2]` of them outputs neither — `A` is not in the output.
Likewise, with an even earlier record `B` of the same key in the batch, the
claimed "earlier record `A`" of the pair `[A, A2]` is dropped, not kept. -/
theorem dedup_same_key_pair_not_kept_counterexample :
    DataCleaner.dedupKey ({ payload := 1 } : DataCleaner.JobRec) =
      DataCleaner.dedupKey ({ payload := 2 } : DataCleaner.JobRec) ∧
    ({ payload := 1 } : DataCleaner.JobRec) ∉
      DataCleaner.deduplicate_jobs [{ payload := 1 }, { payload := 2 }] ∧
    DataCleaner.dedupKey ({ title := " officer".data, payload := 1 } : DataCleaner.JobRec) =
      DataCleaner.dedupKey ({ title := "OFFICER".data, payload := 2 } : DataCleaner.JobRec) ∧
    ({ title := " officer".data, payload := 1 } : DataCleaner.JobRec) ∉
      DataCleaner.deduplicate_jobs
        [{ title := "Officer".data, payload := 0 },
         { title := " officer".data, payload := 1 },
         { title := "OFFICER".data, payload := 2 }] := by
  decide

/-- Claim C5 (amended): the dedup key is a pure function of the canonical
forms (letter case and whitespace runs normalized away) of the raw title,
department and location, so case/whitespace variants of the three fields get
the same key; and among the records of one non-empty key, the first such
record of the batch is kept in the output while every later record of that
key is dropped without affecting the output, regardless of its payload.
Records whose key is empty are always dropped (claim C10).  ASCII inputs
(the fragment on which the NFKD step is the identity). -/
theorem dedup_key_canon_invariant_and_first_kept :
    (∀ r1 r2 : DataCleaner.JobRec,
      (∀ c ∈ r1.title ++ r1.department ++ r1.location ++
          r2.title ++ r2.department ++ r2.location, c.toNat < 128) →
      canon r1.title = canon r2.title →
      canon r1.department = canon r2.department →
      canon r1.location = canon r2.location →
      DataCleaner.dedupKey r1 = DataCleaner.dedupKey r2) ∧
    (∀ (l1 l2 l3 : List DataCleaner.JobRec) (A B : DataCleaner.JobRec),
      DataCleaner.dedupKey B = DataCleaner.dedupKey A →
      DataCleaner.dedupKey A ≠ [] →
      (∀ b ∈ l1, DataCleaner.dedupKey b ≠ DataCleaner.dedupKey A) →
      A ∈ DataCleaner.deduplicate_jobs (l1 ++ A :: (l2 ++ B :: l3)) ∧
      DataCleaner.deduplicate_jobs (l1 ++ A :: (l2 ++ B :: l3)) =
        DataCleaner.deduplicate_jobs (l1 ++ A :: (l2 ++ l3))) := by
  constructor
  · intro r1 r2 _ ht hd hl
    exact dedupKey_congr r1 r2 ht hd hl
  · intro l1 l2 l3 A B hkey hne hl1
    exact dedupF_keep_first A B hkey hne l1 [] hl1 (List.not_mem_nil _) l2 l3

/-- Witness for `dedup_key_canon_invariant_and_first_kept`: concrete
case/whitespace variants get one key, and the first record of the key
`officer` is kept while its later duplicate is dropped. -/
theorem dedup_key_canon_invariant_and_first_kept_witness :
    DataCleaner.dedupKey
        ({ title := "  Senior   OFFICER".data, department := "Admin".data,
           location := " Dhaka".data, payload := 1 } : DataCleaner.JobRec) =
      DataCleaner.dedupKey
        ({ title := "senior officer".data, department := "admin".data,
           location := "dhaka".data, payload := 2 } : DataCleaner.JobRec) ∧
    ({ title := "Officer".data, payload := 1 } : DataCleaner.JobRec) ∈
      DataCleaner.deduplicate_jobs
        [{ title := "Officer".data, payload := 1 }, { title := "OFFICER".data, payload := 2 }] ∧
    DataCleaner.deduplicate_jobs
        [{ title := "Officer".data, payload := 1 }, { title := "OFFICER".data, payload := 2 }] =
      DataCleaner.deduplicate_jobs [{ title := "Officer".data, payload := 1 }] := by
  refine ⟨dedup_key_canon_invariant_and_first_kept.1 _ _ (by decide) (by decide) (by decide)
    (by decide), ?_, ?_⟩
  · exact (dedup_key_canon_invariant_and_first_kept.2 [] [] []
      { title := "Officer".data, payload := 1 } { title := "OFFICER".data, payload := 2 }
      (by decide) (by decide) (fun b hb => absurd hb (List.not_mem_nil b))).1
  · exact (dedup_key_canon_invariant_and_first_kept.2 [] [] []
      { title := "Officer".data, payload := 1 } { title := "OFFICER".data, payload := 2 }
      (by decide) (by decide) (fun b hb => absurd hb (List.not_mem_nil b))).2
